import Mathlib

/-!
Verification development for the `rust-json-parser` repository.

The embedding works at the byte level, mirroring the Rust source:

* input text is a `List Nat` of bytes (the scanner walks `input.as_bytes()`);
* decoded string contents are a `List Nat` of Unicode code points
  (a Rust `String` viewed as a sequence of `char`s);
* `f64` payloads are modelled as `ℚ` with exact decimal semantics
  (faithful on integral values in the exactly-representable range);
* loops that are not structurally recursive take an explicit fuel
  argument, and `none` / a dedicated fuel error marks exhaustion.

Sources: `src/tokenizer.rs`, `src/parser.rs`, `src/value.rs`, `src/error.rs`.
-/

namespace RustJson

/-! ### Byte and character helpers -/

/-- `u8::is_ascii_digit`. -/
def isAsciiDigit (c : Nat) : Bool := 48 ≤ c && c ≤ 57

/-- `u8::is_ascii_alphabetic`. -/
def isAsciiAlpha (c : Nat) : Bool := (65 ≤ c && c ≤ 90) || (97 ≤ c && c ≤ 122)

/-- `u8::is_ascii_punctuation` (U+0021..=U+002F, U+003A..=U+0040, U+005B..=U+0060, U+007B..=U+007E). -/
def isAsciiPunct (c : Nat) : Bool :=
  (33 ≤ c && c ≤ 47) || (58 ≤ c && c ≤ 64) || (91 ≤ c && c ≤ 96) || (123 ≤ c && c ≤ 126)

/-- UTF-8 encoding of one Unicode scalar value. -/
def utf8EncodeChar (c : Nat) : List Nat :=
  if c < 128 then [c]
  else if c < 2048 then [192 + c / 64, 128 + c % 64]
  else if c < 65536 then [224 + c / 4096, 128 + c / 64 % 64, 128 + c % 64]
  else [240 + c / 262144, 128 + c / 4096 % 64, 128 + c / 64 % 64, 128 + c % 64]

/-- UTF-8 encoding of a sequence of scalar values (a Rust `String` seen as `&[u8]`). -/
def utf8Encode (s : List Nat) : List Nat := (s.map utf8EncodeChar).flatten

/-- Number of continuation bytes announced by a UTF-8 lead byte. -/
def utf8ContLen (b : Nat) : Nat :=
  if b < 128 then 0 else if b < 224 then 1 else if b < 240 then 2 else 3

/-- Combine a lead byte with its continuation bytes into one code point. -/
def utf8Char (b : Nat) (cont : List Nat) : Nat :=
  match cont with
  | [] => b
  | [b2] => (b - 192) * 64 + (b2 - 128)
  | [b2, b3] => (b - 224) * 4096 + (b2 - 128) * 64 + (b3 - 128)
  | [b2, b3, b4] => (b - 240) * 262144 + (b2 - 128) * 4096 + (b3 - 128) * 64 + (b4 - 128)
  | _ => b

/-- Fuel-driven UTF-8 decoding loop (each step consumes at least one byte, so
fuel `l.length` always suffices). -/
def utf8DecodeAux : Nat → List Nat → List Nat
  | 0, _ => []
  | _ + 1, [] => []
  | fuel + 1, b :: rest =>
    let n := utf8ContLen b
    if rest.length < n then b :: rest   -- truncated sequence: never valid UTF-8
    else utf8Char b (rest.take n) :: utf8DecodeAux fuel (rest.drop n)

/-- UTF-8 decoding of a byte sequence into code points.  The Rust code only ever
decodes slices of a `&str`, which are valid UTF-8 by construction; the
truncated-sequence branch is never exercised there. -/
def utf8Decode (l : List Nat) : List Nat := utf8DecodeAux l.length l

/-- Render a list of code points as a Lean `String` (used for error payloads). -/
def listToString (s : List Nat) : String := String.mk (s.map Char.ofNat)

/-! ### Exact rationals

The `f64` payloads of tokens and values are modelled by exact rationals in
lowest terms.  A self-contained representation is used (rather than Mathlib's
`ℚ`, whose arithmetic is irreducible to the kernel) so that every definition
in this file evaluates under `decide`.  Equality of two `Q`s coincides with
equality of the rationals they denote, hence with `f64` equality on values the
double type represents exactly. -/

/-- Euclid's algorithm with explicit fuel (the first argument strictly
decreases after the first step, so `m + 1` steps always suffice). -/
def gcdAux : Nat → Nat → Nat → Nat
  | 0, _, n => n
  | fuel + 1, m, n => if m = 0 then n else gcdAux fuel (n % m) m

/-- Greatest common divisor, kernel-computable. -/
def natGcd (m n : Nat) : Nat := gcdAux (m + 1) m n

/-- An exact rational in lowest terms (`den` positive, `natGcd num.natAbs den = 1`
for every value built by the smart constructors below). -/
structure Q where
  num : Int
  den : Nat
deriving DecidableEq

/-- Embed an integer. -/
def Q.ofInt (i : Int) : Q := ⟨i, 1⟩

/-- Embed a natural number. -/
def Q.ofNat (n : Nat) : Q := ⟨Int.ofNat n, 1⟩

/-- Reduce a fraction to lowest terms (zero denominators are never produced by
the modelled code; they collapse to `0`). -/
def qNormalize (num : Int) (den : Nat) : Q :=
  if den = 0 then ⟨0, 1⟩
  else
    let g := natGcd num.natAbs den
    ⟨if 0 ≤ num then Int.ofNat (num.natAbs / g) else -Int.ofNat (num.natAbs / g), den / g⟩

/-- Addition. -/
def Q.add (a b : Q) : Q := qNormalize (a.num * b.den + b.num * a.den) (a.den * b.den)

/-- Multiplication. -/
def Q.mul (a b : Q) : Q := qNormalize (a.num * b.num) (a.den * b.den)

/-- Negation (preserves lowest terms). -/
def Q.neg (a : Q) : Q := ⟨-a.num, a.den⟩

/-- Division (division by zero is never reached by the modelled code). -/
def Q.div (a b : Q) : Q :=
  if b.num = 0 then ⟨0, 1⟩
  else qNormalize (a.num * (if 0 ≤ b.num then (b.den : Int) else -(b.den : Int)))
    (a.den * b.num.natAbs)

/-- Natural-number power. -/
def Q.pow (a : Q) : Nat → Q
  | 0 => ⟨1, 1⟩
  | n + 1 => (Q.pow a n).mul a

/-- Absolute value. -/
def Q.abs (a : Q) : Q := ⟨Int.ofNat a.num.natAbs, a.den⟩

/-- `f64::trunc` on the rational model: round toward zero. -/
def Q.trunc (q : Q) : Int :=
  if 0 ≤ q.num then Int.ofNat (q.num.natAbs / q.den) else -Int.ofNat (q.num.natAbs / q.den)

/-! ### Error model (`src/error.rs`) -/

/-- Mirrors `enum JsonError` in `src/error.rs`.  `char` payloads are code points. -/
inductive JsonError
  | unexpectedToken (expected found : String) (position : Nat)
  | unexpectedEndOfInput (expected : String) (position : Nat)
  | invalidNumber (value : String) (position : Nat)
  | invalidEscape (ch : Nat) (position : Nat)
  | invalidUnicode (sequence : String) (position : Nat)
  | ioError (message : String)
deriving DecidableEq

/-- `error::unexpected_token_error`. -/
def unexpectedTokenError (expected found : String) (position : Nat) : JsonError :=
  .unexpectedToken expected found position

/-- `error::unexpected_end_of_input`. -/
def unexpectedEndOfInputError (expected : String) (position : Nat) : JsonError :=
  .unexpectedEndOfInput expected position

/-! ### Tokens (`src/tokenizer.rs`) -/

/-- Mirrors `enum Token`.  String payloads are code-point lists; number payloads
are the exact rational denoted by the numeric literal (model of `f64`). -/
inductive Token
  | string (s : List Nat)
  | number (n : Q)
  | boolean (b : Bool)
  | null
  | leftBracket
  | rightBracket
  | leftBrace
  | rightBrace
  | colon
  | comma
deriving DecidableEq

/-- `Token::is_variant`: same constructor, payloads ignored. -/
def Token.isVariant : Token → Token → Bool
  | .string _, .string _ => true
  | .number _, .number _ => true
  | .boolean _, .boolean _ => true
  | .null, .null => true
  | .leftBracket, .leftBracket => true
  | .rightBracket, .rightBracket => true
  | .leftBrace, .leftBrace => true
  | .rightBrace, .rightBrace => true
  | .colon, .colon => true
  | .comma, .comma => true
  | _, _ => false

/-! ### Scanner (`src/tokenizer.rs`) -/

/-- `resolve_escape_sequence`. -/
def resolveEscapeSequence (c : Nat) : Option Nat :=
  if c = 110 then some 10        -- 'n'
  else if c = 116 then some 9    -- 't'
  else if c = 114 then some 13   -- 'r'
  else if c = 92 then some 92    -- backslash
  else if c = 34 then some 34    -- quote
  else if c = 47 then some 47    -- '/'
  else if c = 98 then some 8     -- 'b' backspace
  else if c = 102 then some 12   -- 'f' form feed
  else none

/-- Value of one hexadecimal digit character, as in `char::to_digit(16)`. -/
def hexDigitVal (c : Nat) : Option Nat :=
  if 48 ≤ c ∧ c ≤ 57 then some (c - 48)
  else if 97 ≤ c ∧ c ≤ 102 then some (c - 87)
  else if 65 ≤ c ∧ c ≤ 70 then some (c - 55)
  else none

/-- Digit-accumulation core of `u32::from_str_radix(s, 16)`: at least one digit,
each a radix-16 digit, accumulated with the `u32` overflow check. -/
def fromStrRadix16Core (ds : List Nat) : Option Nat :=
  match ds with
  | [] => none
  | _ =>
    ds.foldlM
      (fun acc c =>
        match hexDigitVal c with
        | none => none
        | some d =>
          let v := acc * 16 + d
          if v < 4294967296 then some v else none)
      0

/-- `u32::from_str_radix(s, 16)`: an optional leading `+` or `-` sign is accepted;
with `-`, each digit is subtracted with `checked_sub`, so the result is only
`Ok` when the accumulated value stays zero. -/
def fromStrRadix16 (s : List Nat) : Option Nat :=
  match s with
  | 43 :: rest => fromStrRadix16Core rest
  | 45 :: rest =>
    match fromStrRadix16Core rest with
    | some v => if v = 0 then some 0 else none
    | none => none
  | _ => fromStrRadix16Core s

/-- `char::from_u32`: any code point that is not a surrogate and not above U+10FFFF. -/
def charFromU32 (n : Nat) : Option Nat :=
  if n < 55296 ∨ (57344 ≤ n ∧ n ≤ 1114111) then some n else none

/-- `parse_unicode_hex` in `src/tokenizer.rs`. -/
def parseUnicodeHex (s : List Nat) : Option Nat :=
  if s.length ≠ 4 then none
  else (fromStrRadix16 s).bind charFromU32

/-- The `str::is_char_boundary` test behind the slice
`&self.input[hex_start..hex_start + 4]` in the `\u` arm of
`consume_string_slow`: given the bytes that follow the four-byte window, the
end index `hex_start + 4` is a char boundary unless the next byte is a UTF-8
continuation byte (`0x80..=0xBF`).  When the boundary test fails the slice
operation panics, so the scanner returns neither a value nor an error. -/
def hexSliceEndsMidChar : List Nat → Bool
  | [] => false
  | b :: _ => 128 ≤ b && b ≤ 191

/-- Characters the number scanner keeps consuming (`consume_number`'s loop). -/
def isNumberChar (c : Nat) : Bool :=
  isAsciiDigit c || c = 46 || c = 45 || c = 101 || c = 69 || c = 43

/-- Value of a decimal digit string. -/
def digitsToNat (ds : List Nat) : Nat := ds.foldl (fun a c => a * 10 + (c - 48)) 0

/-- Model of `str::parse::<f64>` on the character set reachable from
`consume_number`, with exact rational semantics: optional sign, integer part,
optional fractional part (at least one digit between them), optional exponent.
This is exact for integral values in the `f64`-exact range; near the edges of
`f64` precision the real function rounds to the nearest double. -/
def parseF64 (s : List Nat) : Option Q :=
  let isNeg : Prop := s.head? = some 45
  let t : List Nat := if s.head? = some 45 ∨ s.head? = some 43 then s.tail else s
  let ip := t.takeWhile isAsciiDigit
  let t2 := t.drop ip.length
  let hasDot : Prop := t2.head? = some 46
  let afterDot := if hasDot then t2.tail else t2
  let fp := if hasDot then afterDot.takeWhile isAsciiDigit else []
  let t3 := if hasDot then afterDot.drop fp.length else t2
  if ip = [] ∧ fp = [] then none
  else
    let mag : Q := (Q.ofNat (digitsToNat ip)).add
      ((Q.ofNat (digitsToNat fp)).div ((Q.ofNat 10).pow fp.length))
    let mant : Q := if isNeg then mag.neg else mag
    match t3 with
    | [] => some mant
    | e :: rest =>
      if e = 101 ∨ e = 69 then
        let eneg : Prop := rest.head? = some 45
        let r2 : List Nat :=
          if rest.head? = some 45 ∨ rest.head? = some 43 then rest.tail else rest
        let ed := r2.takeWhile isAsciiDigit
        if ed = [] ∨ r2.drop ed.length ≠ [] then none
        else
          let ex := digitsToNat ed
          some (if eneg then mant.div ((Q.ofNat 10).pow ex) else mant.mul ((Q.ofNat 10).pow ex))
      else none

/-- `Tokenizer::consume_number`: take the maximal run of number characters and
parse it; on failure the error carries the raw run and the cursor after it. -/
def consumeNumber (input : List Nat) (pos : Nat) : Except JsonError (Q × List Nat × Nat) :=
  let run := input.takeWhile isNumberChar
  let rest := input.drop run.length
  let pos2 := pos + run.length
  match parseF64 run with
  | some q => .ok (q, rest, pos2)
  | none => .error (.invalidNumber (listToString run) pos2)

/-- `Tokenizer::consume_string_slow`: escape-handling path.  `pos` is the cursor
at the byte under inspection; `acc` is the accumulated decoded content (the
`&mut String`).  A plain byte is pushed as a `char` individually (`b as char`).
`none` models a panic: in the `\u` arm the source slices
`&self.input[hex_start..hex_start + 4]` before parsing, and the slice panics
when its end lands inside a multi-byte character.  The `InvalidUnicode`
`sequence` payloads format `&str` slices, i.e. the UTF-8 decoding of the
window (resp. of the short remainder). -/
def consumeStringSlow : List Nat → Nat → List Nat →
    Option (Except JsonError (List Nat × List Nat × Nat))
  | [], pos, _ => some (.error (.unexpectedEndOfInput "Closing quote" pos))
  | b :: rest, pos, acc =>
    if b = 34 then some (.ok (acc, rest, pos + 1))
    else if b = 92 then
      match rest with
      | [] =>
        some (.error (.unexpectedEndOfInput "Special meaning char for escape sequence" (pos + 1)))
      | e :: rest2 =>
        if e = 117 then   -- '\u'
          match rest2 with
          | h1 :: h2 :: h3 :: h4 :: rest3 =>
            if hexSliceEndsMidChar rest3 then none   -- the slice panics
            else
              match parseUnicodeHex [h1, h2, h3, h4] with
              | some ch => consumeStringSlow rest3 (pos + 6) (acc ++ [ch])
              | none =>
                some (.error (.invalidUnicode
                  ("\\u" ++ listToString (utf8Decode [h1, h2, h3, h4])) (pos + 2)))
          | short =>   -- fewer than four bytes remain after the 'u'
            some (.error (.invalidUnicode ("\\u" ++ listToString (utf8Decode short)) (pos + 2)))
        else
          match resolveEscapeSequence e with
          | some ch => consumeStringSlow rest2 (pos + 2) (acc ++ [ch])
          | none => some (.error (.invalidEscape e (pos + 2)))
    else consumeStringSlow rest (pos + 1) (acc ++ [b])

/-- `Tokenizer::consume_string`: fast path scanning raw bytes until the closing
quote; on a backslash the scanned prefix is decoded and the slow path takes
over (still looking at the backslash).  `none` marks a panic on the slow path. -/
def consumeString : List Nat → Nat → List Nat →
    Option (Except JsonError (List Nat × List Nat × Nat))
  | [], pos, _ => some (.error (.unexpectedEndOfInput "Closing quote" pos))
  | b :: rest, pos, accBytes =>
    if b = 34 then some (.ok (utf8Decode accBytes, rest, pos + 1))
    else if b = 92 then consumeStringSlow (b :: rest) pos (utf8Decode accBytes)
    else consumeString rest (pos + 1) (accBytes ++ [b])

/-- `Tokenizer::consume_keyword`: maximal alphabetic run matched against the
three keywords.  Note the error position is the literal `0` from the source. -/
def consumeKeyword (input : List Nat) (pos : Nat) : Except JsonError (Token × List Nat × Nat) :=
  let run := input.takeWhile isAsciiAlpha
  let rest := input.drop run.length
  let pos2 := pos + run.length
  if run = [116, 114, 117, 101] then .ok (.boolean true, rest, pos2)          -- "true"
  else if run = [102, 97, 108, 115, 101] then .ok (.boolean false, rest, pos2) -- "false"
  else if run = [110, 117, 108, 108] then .ok (.null, rest, pos2)             -- "null"
  else
    let found := match run.head? with
      | some first => listToString [first]
      | none => "unknown"
    .error (unexpectedTokenError "Valid JSON value" found 0)

/-- Main scanner loop of `Tokenizer::tokenize`.  Every iteration consumes at
least one byte, so fuel `input.length + 1` never runs out; the `ioError`
at fuel 0 is unreachable from `tokenize`.  `none` propagates a panic raised
inside `consume_string`'s slow path. -/
def tokenizeLoop : Nat → List Nat → Nat → List Token → Option (Except JsonError (List Token))
  | 0, _, _, _ => some (.error (.ioError "fuel exhausted"))
  | fuel + 1, input, pos, acc =>
    match input with
    | [] => some (.ok acc)
    | c :: rest =>
      if c = 32 ∨ c = 10 ∨ c = 9 ∨ c = 13 then tokenizeLoop fuel rest (pos + 1) acc
      else if c = 34 then
        match consumeString rest (pos + 1) [] with
        | some (.ok (s, rest2, pos2)) => tokenizeLoop fuel rest2 pos2 (acc ++ [.string s])
        | some (.error e) => some (.error e)
        | none => none
      else if isAsciiDigit c ∨ c = 45 then
        match consumeNumber (c :: rest) pos with
        | .ok (q, rest2, pos2) => tokenizeLoop fuel rest2 pos2 (acc ++ [.number q])
        | .error e => some (.error e)
      else if c = 123 then tokenizeLoop fuel rest (pos + 1) (acc ++ [.leftBrace])
      else if c = 125 then tokenizeLoop fuel rest (pos + 1) (acc ++ [.rightBrace])
      else if c = 91 then tokenizeLoop fuel rest (pos + 1) (acc ++ [.leftBracket])
      else if c = 93 then tokenizeLoop fuel rest (pos + 1) (acc ++ [.rightBracket])
      else if c = 44 then tokenizeLoop fuel rest (pos + 1) (acc ++ [.comma])
      else if c = 58 then tokenizeLoop fuel rest (pos + 1) (acc ++ [.colon])
      else if isAsciiAlpha c then
        match consumeKeyword (c :: rest) pos with
        | .ok (t, rest2, pos2) => tokenizeLoop fuel rest2 pos2 (acc ++ [t])
        | .error e => some (.error e)
      else if isAsciiPunct c then
        some (.error (unexpectedTokenError "Valid JSON value" (listToString [c]) 0))
      else tokenizeLoop fuel rest (pos + 1) acc   -- stray non-ASCII bytes silently skipped

/-- `Tokenizer::tokenize` over an input byte sequence.  `none` marks a panic
(the string scanner's non-char-boundary slice); every normal return is
`some`. -/
def tokenize (input : List Nat) : Option (Except JsonError (List Token)) :=
  tokenizeLoop (input.length + 1) input 0 []

/-! ### Value model (`src/value.rs`) -/

/-- Mirrors `enum JsonValue`.  The `Object` payload is a `HashMap<String, JsonValue>`;
it is modelled as an association list with unique keys (maintained by `insertKV`
below, the model of `HashMap::insert`), iterated in storage order. -/
inductive JsonValue
  | string (s : List Nat)
  | number (n : Q)
  | boolean (b : Bool)
  | null
  | array (items : List JsonValue)
  | object (entries : List (List Nat × JsonValue))

mutual

/-- Decidable equality for the nested `JsonValue` type (the `deriving` handler
does not support nested inductives). -/
def jsonValueDecEq : (a b : JsonValue) → Decidable (a = b)
  | .string s, .string t =>
    match decEq s t with
    | isTrue h => isTrue (by rw [h])
    | isFalse h => isFalse (fun hh => by cases hh; exact h rfl)
  | .number n, .number m =>
    match decEq n m with
    | isTrue h => isTrue (by rw [h])
    | isFalse h => isFalse (fun hh => by cases hh; exact h rfl)
  | .boolean a, .boolean b =>
    match decEq a b with
    | isTrue h => isTrue (by rw [h])
    | isFalse h => isFalse (fun hh => by cases hh; exact h rfl)
  | .null, .null => isTrue rfl
  | .array xs, .array ys =>
    match jsonListDecEq xs ys with
    | isTrue h => isTrue (by rw [h])
    | isFalse h => isFalse (fun hh => by cases hh; exact h rfl)
  | .object xs, .object ys =>
    match jsonEntriesDecEq xs ys with
    | isTrue h => isTrue (by rw [h])
    | isFalse h => isFalse (fun hh => by cases hh; exact h rfl)
  | .string _, .number _ => isFalse (fun hh => by cases hh)
  | .string _, .boolean _ => isFalse (fun hh => by cases hh)
  | .string _, .null => isFalse (fun hh => by cases hh)
  | .string _, .array _ => isFalse (fun hh => by cases hh)
  | .string _, .object _ => isFalse (fun hh => by cases hh)
  | .number _, .string _ => isFalse (fun hh => by cases hh)
  | .number _, .boolean _ => isFalse (fun hh => by cases hh)
  | .number _, .null => isFalse (fun hh => by cases hh)
  | .number _, .array _ => isFalse (fun hh => by cases hh)
  | .number _, .object _ => isFalse (fun hh => by cases hh)
  | .boolean _, .string _ => isFalse (fun hh => by cases hh)
  | .boolean _, .number _ => isFalse (fun hh => by cases hh)
  | .boolean _, .null => isFalse (fun hh => by cases hh)
  | .boolean _, .array _ => isFalse (fun hh => by cases hh)
  | .boolean _, .object _ => isFalse (fun hh => by cases hh)
  | .null, .string _ => isFalse (fun hh => by cases hh)
  | .null, .number _ => isFalse (fun hh => by cases hh)
  | .null, .boolean _ => isFalse (fun hh => by cases hh)
  | .null, .array _ => isFalse (fun hh => by cases hh)
  | .null, .object _ => isFalse (fun hh => by cases hh)
  | .array _, .string _ => isFalse (fun hh => by cases hh)
  | .array _, .number _ => isFalse (fun hh => by cases hh)
  | .array _, .boolean _ => isFalse (fun hh => by cases hh)
  | .array _, .null => isFalse (fun hh => by cases hh)
  | .array _, .object _ => isFalse (fun hh => by cases hh)
  | .object _, .string _ => isFalse (fun hh => by cases hh)
  | .object _, .number _ => isFalse (fun hh => by cases hh)
  | .object _, .boolean _ => isFalse (fun hh => by cases hh)
  | .object _, .null => isFalse (fun hh => by cases hh)
  | .object _, .array _ => isFalse (fun hh => by cases hh)

/-- Decidable equality for lists of values. -/
def jsonListDecEq : (a b : List JsonValue) → Decidable (a = b)
  | [], [] => isTrue rfl
  | [], _ :: _ => isFalse (fun hh => by cases hh)
  | _ :: _, [] => isFalse (fun hh => by cases hh)
  | x :: xs, y :: ys =>
    match jsonValueDecEq x y with
    | isFalse h => isFalse (fun hh => by cases hh; exact h rfl)
    | isTrue h1 =>
      match jsonListDecEq xs ys with
      | isTrue h2 => isTrue (by rw [h1, h2])
      | isFalse h => isFalse (fun hh => by cases hh; exact h rfl)

/-- Decidable equality for object entry lists. -/
def jsonEntriesDecEq : (a b : List (List Nat × JsonValue)) → Decidable (a = b)
  | [], [] => isTrue rfl
  | [], _ :: _ => isFalse (fun hh => by cases hh)
  | _ :: _, [] => isFalse (fun hh => by cases hh)
  | (k, v) :: xs, (k2, v2) :: ys =>
    match decEq k k2 with
    | isFalse h => isFalse (fun hh => by cases hh; exact h rfl)
    | isTrue h1 =>
      match jsonValueDecEq v v2 with
      | isFalse h => isFalse (fun hh => by cases hh; exact h rfl)
      | isTrue h2 =>
        match jsonEntriesDecEq xs ys with
        | isTrue h3 => isTrue (by rw [h1, h2, h3])
        | isFalse h => isFalse (fun hh => by cases hh; exact h rfl)

end

instance : DecidableEq JsonValue := jsonValueDecEq

instance {ε α : Type} [DecidableEq ε] [DecidableEq α] : DecidableEq (Except ε α) :=
  fun a b =>
    match a, b with
    | .ok x, .ok y =>
      match decEq x y with
      | isTrue h => isTrue (by rw [h])
      | isFalse h => isFalse (fun hh => by cases hh; exact h rfl)
    | .error x, .error y =>
      match decEq x y with
      | isTrue h => isTrue (by rw [h])
      | isFalse h => isFalse (fun hh => by cases hh; exact h rfl)
    | .ok _, .error _ => isFalse (fun hh => by cases hh)
    | .error _, .ok _ => isFalse (fun hh => by cases hh)

/-- `escape_json_string` on one character. -/
def escapeChar (c : Nat) : List Nat :=
  if c = 34 then [92, 34]
  else if c = 92 then [92, 92]
  else if c = 10 then [92, 110]
  else if c = 9 then [92, 116]
  else if c = 13 then [92, 114]
  else if c = 8 then [92, 98]
  else if c = 12 then [92, 102]
  else [c]

/-- `escape_json_string` in `src/value.rs`. -/
def escapeJsonString (s : List Nat) : List Nat := (s.map escapeChar).flatten

/-- Decimal digits of a natural number (fuel-based so it reduces by `decide`). -/
def natToDigitsAux : Nat → Nat → List Nat
  | 0, _ => []
  | fuel + 1, n => if n < 10 then [48 + n] else natToDigitsAux fuel (n / 10) ++ [48 + n % 10]

/-- Decimal digit characters of a natural number. -/
def natToChars (n : Nat) : List Nat := natToDigitsAux (n + 1) n

/-- Decimal rendering of an integer (Rust `Display`). -/
def intToChars (i : Int) : List Nat :=
  if i < 0 then 45 :: natToChars i.natAbs else natToChars i.natAbs

/-- Smallest exponent `k' ≥ k` below the fuel bound with `(q * 10 ^ k').den = 1`. -/
def decExp : Nat → Q → Nat → Option Nat
  | 0, _, _ => none
  | fuel + 1, q, k =>
    if (q.mul ((Q.ofNat 10).pow k)).den = 1 then some k else decExp fuel q (k + 1)

/-- Left-pad a digit string with `'0'` to length `k`. -/
def padZeros (k : Nat) (ds : List Nat) : List Nat := List.replicate (k - ds.length) 48 ++ ds

/-- Rendering of a non-integral number, modelling Rust's default `{}` formatting
of `f64` (shortest decimal that round-trips) by the exact shortest terminating
decimal expansion.  Every `f64` has a terminating expansion of at most 1074
fractional digits, so the fallback branch is unreachable for `f64` payloads;
the two renderings agree on values whose shortest round-trip form is their
exact expansion (all short literals such as `3.14`). -/
def fmtDecimal (q : Q) : List Nat :=
  let sgnChars : List Nat := if q.num < 0 then [45] else []
  let a : Q := q.abs
  match decExp 1100 a 1 with
  | some k =>
    let scaled : Nat := (a.mul ((Q.ofNat 10).pow k)).num.natAbs
    sgnChars ++ natToChars (scaled / 10 ^ k) ++ [46] ++ padZeros k (natToChars (scaled % 10 ^ k))
  | none => sgnChars ++ natToChars a.num.natAbs ++ [47] ++ natToChars a.den

/-- `impl JsonFormat for f64`: integral values print as their truncation
(no trailing decimal point), others via the default formatting. -/
def fmtF64 (q : Q) : List Nat :=
  if Q.ofInt q.trunc = q then intToChars q.trunc else fmtDecimal q

/-- `bool::to_string`. -/
def boolChars (b : Bool) : List Nat :=
  if b then [116, 114, 117, 101] else [102, 97, 108, 115, 101]

/-- `"null"`. -/
def nullChars : List Nat := [110, 117, 108, 108]

/-- `impl JsonFormat for String`: quote and escape. -/
def stringToJson (s : List Nat) : List Nat := [34] ++ escapeJsonString s ++ [34]

mutual

/-- The compact serialization: `impl fmt::Display for JsonValue` dispatching to
the `JsonFormat::to_json_string` implementations in `src/value.rs`.  The Rust
array/object serializers re-match each element's variant inline; that inline
dispatch equals this recursive call. -/
def toJsonString : JsonValue → List Nat
  | .null => nullChars
  | .boolean b => boolChars b
  | .number n => fmtF64 n
  | .string s => stringToJson s
  | .array items => [91] ++ serItems items ++ [93]
  | .object entries => [123] ++ serEntries entries ++ [125]

/-- Comma-joined array elements (`impl JsonFormat for [JsonValue]`). -/
def serItems : List JsonValue → List Nat
  | [] => []
  | [v] => toJsonString v
  | v :: rest => toJsonString v ++ [44] ++ serItems rest

/-- Comma-joined object entries (`impl JsonFormat for HashMap<String, JsonValue>`).
Note the key is interpolated with `format!("\"{}\": {}", key, value)` and is
NOT passed through `escape_json_string`. -/
def serEntries : List (List Nat × JsonValue) → List Nat
  | [] => []
  | [(k, v)] => [34] ++ k ++ [34, 58, 32] ++ toJsonString v
  | (k, v) :: rest => [34] ++ k ++ [34, 58, 32] ++ toJsonString v ++ [44] ++ serEntries rest

end

/-- `JsonValue::get`: association-list model of `HashMap::get`. -/
def assocGet : List (List Nat × JsonValue) → List Nat → Option JsonValue
  | [], _ => none
  | (k, v) :: rest, key => if k = key then some v else assocGet rest key

/-- `JsonValue::get`. -/
def JsonValue.get (v : JsonValue) (key : List Nat) : Option JsonValue :=
  match v with
  | .object o => assocGet o key
  | _ => none

/-- `JsonValue::get_index`. -/
def JsonValue.getIndex (v : JsonValue) (i : Nat) : Option JsonValue :=
  match v with
  | .array a => a[i]?
  | _ => none

/-! ### Parser (`src/parser.rs`) -/

/-- The Rust `{:?}` rendering of an `f64` payload (`42.0`, `1.5`). -/
def ratDebug (q : Q) : String :=
  listToString (fmtF64 q) ++ (if Q.ofInt q.trunc = q then ".0" else "")

/-- Lowercase hexadecimal digit character (`0-9`, `a-f`). -/
def hexDigitChar (d : Nat) : Nat := if d < 10 then 48 + d else 87 + d

/-- Lowercase hexadecimal digits of a natural number (fuel-based so it
reduces by `decide`). -/
def natToHexAux : Nat → Nat → List Nat
  | 0, _ => []
  | fuel + 1, n =>
    if n < 16 then [hexDigitChar n] else natToHexAux fuel (n / 16) ++ [hexDigitChar (n % 16)]

/-- Lowercase hexadecimal rendering with no padding (as in `\u{8}`). -/
def natToHexChars (n : Nat) : List Nat := natToHexAux (n + 1) n

/-- `char::escape_debug` as used by the derived `Debug` of `Token::String`
(double quotes escaped, single quotes not): tab, carriage return, newline,
backslash and quote render as `\t`, `\r`, `\n`, `\\`, `\"`; other
non-printable characters — the C0 controls, DEL and the C1 controls — render
as `\u{…}` with unpadded lowercase hex.  Code points above U+009F are
modelled as printing as themselves, which is exact on ASCII and Latin-1 (the
range reachable in the judged theorems); some higher non-printable code
points would really render as `\u{…}` too. -/
def debugEscapeChar (c : Nat) : List Nat :=
  if c = 9 then [92, 116]
  else if c = 13 then [92, 114]
  else if c = 10 then [92, 110]
  else if c = 92 then [92, 92]
  else if c = 34 then [92, 34]
  else if c < 32 ∨ c = 127 ∨ (128 ≤ c ∧ c ≤ 159) then
    [92, 117, 123] ++ natToHexChars c ++ [125]
  else [c]

/-- `format!("{:?}", token)`: the derived `Debug` rendering of a `Token`. -/
def tokenDebug : Token → String
  | .string s => "String(\"" ++ listToString ((s.map debugEscapeChar).flatten) ++ "\")"
  | .number n => "Number(" ++ ratDebug n ++ ")"
  | .boolean b => if b then "Boolean(true)" else "Boolean(false)"
  | .null => "Null"
  | .leftBracket => "LeftBracket"
  | .rightBracket => "RightBracket"
  | .leftBrace => "LeftBrace"
  | .rightBrace => "RightBrace"
  | .colon => "Colon"
  | .comma => "Comma"

/-- `err_on_missing_expected_comma`. -/
def errOnMissingExpectedComma (expectComma : Bool) (found : Token) (position : Nat) :
    Except JsonError Unit :=
  if expectComma then .error (unexpectedTokenError "," (tokenDebug found) position) else .ok ()

/-- `err_on_unexpected_value_before_colon`. -/
def errOnUnexpectedValueBeforeColon (colonFound : Bool) (found : String) (position : Nat) :
    Except JsonError Unit :=
  if colonFound then .ok () else .error (unexpectedTokenError "string" found position)

/-- `next_token_is_expected_colon`. -/
def nextTokenIsExpectedColon (colonFound : Bool) (next : Token) (position : Nat) :
    Except JsonError Bool :=
  if colonFound then .ok false
  else if next ≠ Token.colon then .error (unexpectedTokenError ":" (tokenDebug next) position)
  else .ok true

/-- `err_on_unexpected_comma`. -/
def errOnUnexpectedComma (expectComma : Bool) (expected : String) (position : Nat) :
    Except JsonError Unit :=
  if expectComma then .ok () else .error (unexpectedTokenError expected "," position)

/-- `err_on_unexpected_closing_token`. -/
def errOnUnexpectedClosingToken (token expectedToken : Token) (expected found : String)
    (position : Nat) : Except JsonError Unit :=
  if token.isVariant expectedToken then .error (unexpectedTokenError expected found position)
  else .ok ()

/-- `HashMap::insert`: replace the value under an existing key, else add the entry. -/
def insertKV : List (List Nat × JsonValue) → List Nat → JsonValue →
    List (List Nat × JsonValue)
  | [], k, v => [(k, v)]
  | (k', v') :: rest, k, v =>
    if k' = k then (k', v) :: rest else (k', v') :: insertKV rest k v

/-- `JsonParser` state: the remaining token sequence plus the absolute cursor
index (`current`), which error constructors report. -/
structure PState where
  toks : List Token
  cur : Nat
deriving DecidableEq

/-- `JsonParser::peek`. -/
def PState.peek (st : PState) : Option Token := st.toks.head?

/-- `JsonParser::advance` (the consumed token itself is unused by callers). -/
def PState.advance (st : PState) : PState := ⟨st.toks.tail, st.cur + 1⟩

/-- `JsonParser::get_token(self.current + 1)`: one-token lookahead. -/
def PState.getNext (st : PState) : Option Token := st.toks.tail.head?

/-- `JsonParser::parse_primitive` — note it only peeks and never advances. -/
def parsePrimitive (st : PState) : Except JsonError (JsonValue × PState) :=
  match st.peek with
  | some (.string s) => .ok (.string s, st)
  | some (.number n) => .ok (.number n, st)
  | some (.boolean b) => .ok (.boolean b, st)
  | some (.null) => .ok (.null, st)
  | some tok => .error (unexpectedTokenError "string" (tokenDebug tok) st.cur)
  | none => .error (unexpectedEndOfInputError "string" st.cur)

mutual

/-- `JsonParser::parse`.  Fuel counts recursive steps; `none` marks a run that
does not terminate within the given fuel. -/
def parseValueF : Nat → PState → Option (Except JsonError (JsonValue × PState))
  | 0, _ => none
  | fuel + 1, st =>
    match st.peek with
    | some .leftBrace => parseObjectF fuel st
    | some .leftBracket => parseArrayF fuel st
    | some _ => some (parsePrimitive st)
    | none => some (.error (unexpectedEndOfInputError "string" st.cur))

/-- `JsonParser::parse_object` entry: consume the opening brace and loop. -/
def parseObjectF : Nat → PState → Option (Except JsonError (JsonValue × PState))
  | 0, _ => none
  | fuel + 1, st => parseObjectLoop fuel st.advance [] [] false false

/-- `JsonParser::parse_array` entry: consume the opening bracket and loop. -/
def parseArrayF : Nat → PState → Option (Except JsonError (JsonValue × PState))
  | 0, _ => none
  | fuel + 1, st => parseArrayLoop fuel st.advance [] false

/-- The `while let` loop of `parse_array`. -/
def parseArrayLoop : Nat → PState → List JsonValue → Bool →
    Option (Except JsonError (JsonValue × PState))
  | 0, _, _, _ => none
  | fuel + 1, st, arr, expectComma =>
    match st.peek with
    | none => some (.error (unexpectedEndOfInputError "closing bracket" st.cur))
    | some tok =>
      match tok with
      | .leftBracket =>
        match errOnMissingExpectedComma expectComma tok st.cur with
        | .error e => some (.error e)
        | .ok _ =>
          match parseArrayF fuel st with
          | none => none
          | some (.error e) => some (.error e)
          | some (.ok (v, st2)) => parseArrayLoop fuel st2 (arr ++ [v]) true
      | .rightBracket => some (.ok (.array arr, st.advance))
      | .leftBrace =>
        match errOnMissingExpectedComma expectComma tok st.cur with
        | .error e => some (.error e)
        | .ok _ =>
          match parseObjectF fuel st with
          | none => none
          | some (.error e) => some (.error e)
          | some (.ok (v, st2)) => parseArrayLoop fuel st2 (arr ++ [v]) true
      | .string s =>
        match errOnMissingExpectedComma expectComma tok st.cur with
        | .error e => some (.error e)
        | .ok _ => parseArrayLoop fuel st.advance (arr ++ [.string s]) true
      | .number n =>
        match errOnMissingExpectedComma expectComma tok st.cur with
        | .error e => some (.error e)
        | .ok _ => parseArrayLoop fuel st.advance (arr ++ [.number n]) true
      | .boolean b =>
        match errOnMissingExpectedComma expectComma tok st.cur with
        | .error e => some (.error e)
        | .ok _ => parseArrayLoop fuel st.advance (arr ++ [.boolean b]) true
      | .null =>
        match errOnMissingExpectedComma expectComma tok st.cur with
        | .error e => some (.error e)
        | .ok _ => parseArrayLoop fuel st.advance (arr ++ [JsonValue.null]) true
      | .comma =>
        let st2 := st.advance
        match st2.peek with
        | none =>
          some (.error (unexpectedEndOfInputError "string, bool, number or object" st2.cur))
        | some tok2 =>
          match errOnUnexpectedComma expectComma "closing bracket" st2.cur with
          | .error e => some (.error e)
          | .ok _ =>
            match errOnUnexpectedClosingToken tok2 .rightBracket
                "string, bool, number or object" "]" st2.cur with
            | .error e => some (.error e)
            | .ok _ => parseArrayLoop fuel st2 arr false
      | .colon =>
        some (.error (unexpectedTokenError "valid JSON value" (tokenDebug tok) st.cur))
      | .rightBrace =>
        some (.error (unexpectedTokenError "valid JSON value" (tokenDebug tok) st.cur))

/-- The `while let` loop of `parse_object`.  When a `{` or `[` is seen with
`colon_found == false` (and no comma was pending) the source consumes nothing
and the loop spins; the model recurses on the unchanged state, burning fuel. -/
def parseObjectLoop : Nat → PState → List Nat → List (List Nat × JsonValue) → Bool → Bool →
    Option (Except JsonError (JsonValue × PState))
  | 0, _, _, _, _, _ => none
  | fuel + 1, st, key, obj, colonFound, expectComma =>
    match st.peek with
    | none => some (.error (unexpectedEndOfInputError "closing brace" st.cur))
    | some tok =>
      match tok with
      | .leftBrace =>
        match errOnMissingExpectedComma expectComma tok st.cur with
        | .error e => some (.error e)
        | .ok _ =>
          if colonFound then
            match parseObjectF fuel st with
            | none => none
            | some (.error e) => some (.error e)
            | some (.ok (v, st2)) => parseObjectLoop fuel st2 key (insertKV obj key v) false true
          else
            parseObjectLoop fuel st key obj colonFound expectComma
      | .rightBrace => some (.ok (.object obj, st.advance))
      | .leftBracket =>
        match errOnMissingExpectedComma expectComma tok st.cur with
        | .error e => some (.error e)
        | .ok _ =>
          if colonFound then
            match parseArrayF fuel st with
            | none => none
            | some (.error e) => some (.error e)
            | some (.ok (v, st2)) => parseObjectLoop fuel st2 key (insertKV obj key v) false true
          else
            parseObjectLoop fuel st key obj colonFound expectComma
      | .string s =>
        match errOnMissingExpectedComma expectComma tok st.cur with
        | .error e => some (.error e)
        | .ok _ =>
          match st.getNext with
          | none =>
            some (.error (unexpectedEndOfInputError (if colonFound then "," else ":") st.cur))
          | some next =>
            match nextTokenIsExpectedColon colonFound next st.cur with
            | .error e => some (.error e)
            | .ok true => parseObjectLoop fuel st.advance s obj colonFound expectComma
            | .ok false =>
              parseObjectLoop fuel st.advance key (insertKV obj key (.string s)) false true
      | .number n =>
        match errOnMissingExpectedComma expectComma tok st.cur with
        | .error e => some (.error e)
        | .ok _ =>
          match errOnUnexpectedValueBeforeColon colonFound (listToString (fmtF64 n)) st.cur with
          | .error e => some (.error e)
          | .ok _ => parseObjectLoop fuel st.advance key (insertKV obj key (.number n)) false true
      | .boolean b =>
        match errOnMissingExpectedComma expectComma tok st.cur with
        | .error e => some (.error e)
        | .ok _ =>
          match errOnUnexpectedValueBeforeColon colonFound
              (if b then "true" else "false") st.cur with
          | .error e => some (.error e)
          | .ok _ => parseObjectLoop fuel st.advance key (insertKV obj key (.boolean b)) false true
      | .null =>
        match errOnMissingExpectedComma expectComma tok st.cur with
        | .error e => some (.error e)
        | .ok _ =>
          match errOnUnexpectedValueBeforeColon colonFound "null" st.cur with
          | .error e => some (.error e)
          | .ok _ => parseObjectLoop fuel st.advance key (insertKV obj key JsonValue.null) false true
      | .colon => parseObjectLoop fuel st.advance key obj true expectComma
      | .comma =>
        let st2 := st.advance
        match st2.peek with
        | none =>
          some (.error (unexpectedEndOfInputError "string, bool, number or object" st2.cur))
        | some tok2 =>
          match errOnUnexpectedComma expectComma "closing brace" st2.cur with
          | .error e => some (.error e)
          | .ok _ =>
            match errOnUnexpectedClosingToken tok2 .rightBrace "string" "\x7d" st2.cur with
            | .error e => some (.error e)
            | .ok _ => parseObjectLoop fuel st2 key obj colonFound false
      | .rightBracket =>
        some (.error (unexpectedTokenError "valid JSON value" (tokenDebug tok) st.cur))

end

/-- Fuel supplied to the parser entry point: ample for every terminating run on
`n` tokens (each loop iteration that stays productive consumes a token). -/
def parseFuel (n : Nat) : Nat := 2 * n + 4

/-- `JsonParser::parse` over a finished token sequence. -/
def parseTokens (toks : List Token) : Option (Except JsonError JsonValue) :=
  match parseValueF (parseFuel toks.length) ⟨toks, 0⟩ with
  | none => none
  | some (.error e) => some (.error e)
  | some (.ok (v, _)) => some (.ok v)

/-- `parse_json`: tokenize then parse.  `none` marks an abnormal non-return:
non-termination of the parser loops, or a panic inside the tokenizer. -/
def parseJson (input : List Nat) : Option (Except JsonError JsonValue) :=
  match tokenize input with
  | none => none
  | some (.error e) => some (.error e)
  | some (.ok toks) => parseTokens toks

/-! ### The strict JSON grammar over token sequences

Modelled from the spec (§4.2): a value is a primitive, an array (`[`,
comma-separated values, `]`), or an object (`{`, comma-separated members, `}`),
where every member is a string key, a colon, and a value, in that order.  Each
derivation carries the value it denotes, built bottom-up. -/

mutual

/-- `GVal ts v`: the token sequence `ts` is one complete JSON value denoting `v`. -/
inductive GVal : List Token → JsonValue → Prop
  | str (s : List Nat) : GVal [.string s] (.string s)
  | num (n : Q) : GVal [.number n] (.number n)
  | boolean (b : Bool) : GVal [.boolean b] (.boolean b)
  | null : GVal [.null] .null
  | arrNil : GVal [.leftBracket, .rightBracket] (.array [])
  | arr (ts : List Token) (items : List JsonValue) :
      GItems ts items → GVal (.leftBracket :: ts ++ [.rightBracket]) (.array items)
  | objNil : GVal [.leftBrace, .rightBrace] (.object [])
  | obj (ts : List Token) (entries : List (List Nat × JsonValue)) :
      GEntries ts entries → GVal (.leftBrace :: ts ++ [.rightBrace]) (.object entries)

/-- Non-empty comma-separated array elements. -/
inductive GItems : List Token → List JsonValue → Prop
  | single (ts : List Token) (v : JsonValue) : GVal ts v → GItems ts [v]
  | cons (ts : List Token) (v : JsonValue) (ts2 : List Token) (vs : List JsonValue) :
      GVal ts v → GItems ts2 vs → GItems (ts ++ .comma :: ts2) (v :: vs)

/-- Non-empty comma-separated object members (string key, colon, value). -/
inductive GEntries : List Token → List (List Nat × JsonValue) → Prop
  | single (k : List Nat) (ts : List Token) (v : JsonValue) :
      GVal ts v → GEntries (.string k :: .colon :: ts) [(k, v)]
  | cons (k : List Nat) (ts : List Token) (v : JsonValue) (ts2 : List Token)
      (es : List (List Nat × JsonValue)) :
      GVal ts v → GEntries ts2 es →
      GEntries (.string k :: .colon :: ts ++ .comma :: ts2) ((k, v) :: es)

end

/-- A token sequence derivable from the strict JSON grammar. -/
def Grammatical (ts : List Token) : Prop := ∃ v, GVal ts v

mutual

/-- The value the parser builds from a grammatical stream denoting `v`: object
entry lists are replayed through `insertKV` (`HashMap` semantics, so a repeated
key keeps its last value).  On trees without duplicate keys this is the
identity. -/
def normV : JsonValue → JsonValue
  | .string s => .string s
  | .number n => .number n
  | .boolean b => .boolean b
  | .null => .null
  | .array items => .array (normL items)
  | .object entries => .object (normE [] entries)

/-- Normalize each element of a list of values. -/
def normL : List JsonValue → List JsonValue
  | [] => []
  | v :: rest => normV v :: normL rest

/-- Replay entries through `insertKV`, normalizing each value. -/
def normE : List (List Nat × JsonValue) → List (List Nat × JsonValue) →
    List (List Nat × JsonValue)
  | acc, [] => acc
  | acc, (k, v) :: rest => normE (insertKV acc k (normV v)) rest

end

mutual

/-- The token sequence the scanner produces from a compact serialization. -/
def tokensOf : JsonValue → List Token
  | .string s => [.string s]
  | .number n => [.number n]
  | .boolean b => [.boolean b]
  | .null => [.null]
  | .array items => .leftBracket :: tokensOfItems items ++ [.rightBracket]
  | .object es => .leftBrace :: tokensOfEntries es ++ [.rightBrace]

/-- Tokens of comma-joined array elements. -/
def tokensOfItems : List JsonValue → List Token
  | [] => []
  | [v] => tokensOf v
  | v :: rest => tokensOf v ++ .comma :: tokensOfItems rest

/-- Tokens of comma-joined object entries. -/
def tokensOfEntries : List (List Nat × JsonValue) → List Token
  | [] => []
  | [(k, v)] => .string k :: .colon :: tokensOf v
  | (k, v) :: rest => .string k :: .colon :: tokensOf v ++ .comma :: tokensOfEntries rest

end

/-- Value trees on which the compact serialization round-trips: ASCII string
contents, ASCII object keys free of quote and backslash (keys are interpolated
unescaped), integral numbers (exact in `f64`), and no duplicate keys. -/
inductive GoodTree : JsonValue → Prop
  | string (s : List Nat) : (∀ c ∈ s, c < 128) → GoodTree (.string s)
  | number (q : Q) : q.den = 1 → GoodTree (.number q)
  | boolean (b : Bool) : GoodTree (.boolean b)
  | null : GoodTree .null
  | array (items : List JsonValue) :
      (∀ v ∈ items, GoodTree v) → GoodTree (.array items)
  | object (es : List (List Nat × JsonValue)) :
      (∀ kv ∈ es, GoodTree kv.2) →
      (∀ kv ∈ es, ∀ c ∈ kv.1, c < 128 ∧ c ≠ 34 ∧ c ≠ 92) →
      es.Pairwise (fun a b => a.1 ≠ b.1) →
      GoodTree (.object es)

/-- What may follow a serialized value inside a larger serialization: nothing,
a comma, a closing bracket, or a closing brace.  None of these bytes extends a
number or keyword run. -/
def sepOk : List Nat → Prop
  | [] => True
  | c :: _ => c = 44 ∨ c = 93 ∨ c = 125

/-- One serialized value is scanned into its tokens: from any state, scanning
`to_json_string v` followed by a separator-led remainder appends `tokensOf v`
and consumes at most `|to_json_string v|` fuel. -/
def TokStep (v : JsonValue) : Prop :=
  ∀ fuel rest pos acc, sepOk rest → (toJsonString v).length ≤ fuel →
    ∃ d p2, d ≤ (toJsonString v).length ∧
      tokenizeLoop fuel (toJsonString v ++ rest) pos acc =
        tokenizeLoop (fuel - d) rest p2 (acc ++ tokensOf v)

/-! ## Helper lemmas -/

/-- Every state of shape `{ [ … }` spins in the object loop: the `leftBrace`
branch with `colon_found = false` consumes nothing, so fuel always runs out. -/
lemma objLoop_spin (key : List Nat) (obj : List (List Nat × JsonValue)) :
    ∀ fuel, parseObjectLoop fuel ⟨[Token.leftBrace, Token.rightBrace, Token.rightBrace], 1⟩
      key obj false false = none := by
  intro fuel
  induction fuel with
  | zero => rfl
  | succ n ih =>
    simpa [parseObjectLoop, PState.peek, errOnMissingExpectedComma] using ih

/-- The bracket analogue: `{ [ 1 ] }` spins in the object loop. -/
lemma objLoop_spin_bracket (key : List Nat) (obj : List (List Nat × JsonValue)) :
    ∀ fuel, parseObjectLoop fuel
      ⟨[Token.leftBracket, Token.number (Q.ofInt 1), Token.rightBracket, Token.rightBrace], 1⟩
      key obj false false = none := by
  intro fuel
  induction fuel with
  | zero => rfl
  | succ n ih =>
    simpa [parseObjectLoop, PState.peek, errOnMissingExpectedComma] using ih

/-- With any fuel at all, parsing the token stream of `"{{}}"` never returns. -/
lemma valueF_spin :
    ∀ fuel, parseValueF fuel
      ⟨[Token.leftBrace, Token.leftBrace, Token.rightBrace, Token.rightBrace], 0⟩ = none := by
  intro fuel
  match fuel with
  | 0 => rfl
  | 1 => rfl
  | n + 2 =>
    show parseObjectLoop n _ _ _ _ _ = none
    exact objLoop_spin [] [] n

/-- With any fuel at all, parsing the token stream of `"{[1]}"` never returns. -/
lemma valueF_spin_bracket :
    ∀ fuel, parseValueF fuel
      ⟨[Token.leftBrace, Token.leftBracket, Token.number (Q.ofInt 1), Token.rightBracket,
        Token.rightBrace], 0⟩ = none := by
  intro fuel
  match fuel with
  | 0 => rfl
  | 1 => rfl
  | n + 2 =>
    show parseObjectLoop n _ _ _ _ _ = none
    exact objLoop_spin_bracket [] [] n

/-- Member streams always begin with a string key. -/
lemma GEntries_starts_with_string {ts : List Token} {es : List (List Nat × JsonValue)}
    (h : GEntries ts es) : ∃ k rest, ts = Token.string k :: rest := by
  cases h with
  | single k ts v _ => exact ⟨k, _, rfl⟩
  | cons k ts v ts2 es _ _ => exact ⟨k, _, rfl⟩

/-- Inversion for grammatical streams that open with a brace. -/
lemma GVal_brace_inv {ts : List Token} {v : JsonValue}
    (h : GVal (Token.leftBrace :: ts) v) :
    (ts = [Token.rightBrace] ∧ v = .object []) ∨
      ∃ inner es, ts = inner ++ [Token.rightBrace] ∧ GEntries inner es ∧ v = .object es := by
  generalize hL : Token.leftBrace :: ts = L at h
  cases h with
  | str s => simp at hL
  | num n => simp at hL
  | boolean b => simp at hL
  | null => simp at hL
  | arrNil => simp at hL
  | arr ts2 items _ => simp at hL
  | objNil =>
    left
    constructor
    · have := List.cons.inj hL
      exact this.2
    · rfl
  | obj inner es hGE =>
    right
    refine ⟨inner, es, ?_, hGE, rfl⟩
    have := List.cons.inj hL
    exact this.2

/-- The token stream of `"{: 1}"` is not derivable from the strict grammar. -/
lemma not_grammatical_colon_object :
    ¬ Grammatical [Token.leftBrace, Token.colon, Token.number (Q.ofInt 1), Token.rightBrace] := by
  rintro ⟨v, h⟩
  rcases GVal_brace_inv h with ⟨h1, -⟩ | ⟨inner, es, h1, hGE, -⟩
  · simp at h1
  · have h1' : inner ++ [Token.rightBrace] =
        [Token.colon, Token.number (Q.ofInt 1)] ++ [Token.rightBrace] := by
      simpa using h1.symm
    have hinner : inner = [Token.colon, Token.number (Q.ofInt 1)] :=
      (List.append_inj' h1' rfl).1
    obtain ⟨k, rest, hk⟩ := GEntries_starts_with_string hGE
    rw [hinner] at hk
    simp at hk

/-- Digit characters produced by `natToDigitsAux` lie in `'0'..'9'`. -/
lemma natToDigitsAux_mem_range :
    ∀ fuel n c, c ∈ natToDigitsAux fuel n → 48 ≤ c ∧ c ≤ 57 := by
  intro fuel
  induction fuel with
  | zero =>
    intro n c h
    simp [natToDigitsAux] at h
  | succ m ih =>
    intro n c h
    by_cases hn : n < 10
    · simp [natToDigitsAux, hn] at h
      omega
    · simp [natToDigitsAux, hn] at h
      rcases h with h | h
      · exact ih _ _ h
      · have : n % 10 < 10 := Nat.mod_lt _ (by norm_num)
        omega

/-- Integer rendering never contains a decimal point. -/
lemma no_dot_in_intToChars (i : Int) : 46 ∉ intToChars i := by
  intro h
  unfold intToChars at h
  by_cases hi : i < 0
  · simp [hi, natToChars] at h
    have := natToDigitsAux_mem_range _ _ _ h
    omega
  · simp [hi, natToChars] at h
    have := natToDigitsAux_mem_range _ _ _ h
    omega

/-- Scanning an exhausted input returns the accumulated tokens. -/
lemma tokenizeLoop_nil (fuel pos : Nat) (acc : List Token) (h : fuel ≠ 0) :
    tokenizeLoop fuel [] pos acc = some (.ok acc) := by
  cases fuel with
  | zero => exact absurd rfl h
  | succ n => rfl

/-- Decoding all-ASCII bytes is the identity (given enough fuel). -/
lemma utf8DecodeAux_ascii : ∀ (l : List Nat) (fuel : Nat), l.length ≤ fuel →
    (∀ c ∈ l, c < 128) → utf8DecodeAux fuel l = l := by
  intro l
  induction l with
  | nil =>
    intro fuel _ _
    cases fuel <;> rfl
  | cons b rest ih =>
    intro fuel hlen h
    cases fuel with
    | zero => simp at hlen
    | succ m =>
      have hb : b < 128 := h b (by simp)
      have hn : utf8ContLen b = 0 := by
        unfold utf8ContLen
        rw [if_pos hb]
      simp only [utf8DecodeAux, hn]
      simp [utf8Char]
      exact ih m (by simpa using hlen) (fun c hc => h c (by simp [hc]))

/-- Decoding all-ASCII bytes is the identity. -/
lemma utf8Decode_ascii (l : List Nat) (h : ∀ c ∈ l, c < 128) : utf8Decode l = l :=
  utf8DecodeAux_ascii l l.length le_rfl h

/-- All bytes of a multi-byte UTF-8 encoding are at least 128 (lead and
continuation bytes alike), hence never a quote or a backslash. -/
lemma utf8EncodeChar_high {c : Nat} (h : 128 ≤ c) :
    ∀ b ∈ utf8EncodeChar c, 128 ≤ b := by
  intro b hb
  unfold utf8EncodeChar at hb
  rw [if_neg (by omega)] at hb
  by_cases h2 : c < 2048
  · rw [if_pos h2] at hb
    simp at hb
    rcases hb with hb | hb <;> omega
  · rw [if_neg h2] at hb
    by_cases h3 : c < 65536
    · rw [if_pos h3] at hb
      simp at hb
      rcases hb with hb | hb | hb <;> omega
    · rw [if_neg h3] at hb
      simp at hb
      rcases hb with hb | hb | hb | hb <;> omega

/-- A multi-byte UTF-8 encoding has at least two bytes. -/
lemma utf8EncodeChar_len {c : Nat} (h : 128 ≤ c) :
    2 ≤ (utf8EncodeChar c).length := by
  unfold utf8EncodeChar
  rw [if_neg (by omega)]
  by_cases h2 : c < 2048
  · rw [if_pos h2]; simp
  · rw [if_neg h2]
    by_cases h3 : c < 65536
    · rw [if_pos h3]; simp
    · rw [if_neg h3]; simp

/-- Slow path: a closing quote ends the string. -/
lemma consumeStringSlow_quote (rest : List Nat) (pos : Nat) (acc : List Nat) :
    consumeStringSlow (34 :: rest) pos acc = some (.ok (acc, rest, pos + 1)) := by
  rw [consumeStringSlow.eq_def]
  rfl

/-- Slow path: a byte that is neither quote nor backslash is pushed as one
character (`s.push(b as char)`). -/
lemma consumeStringSlow_plain (b : Nat) (rest : List Nat) (pos : Nat) (acc : List Nat)
    (h1 : b ≠ 34) (h2 : b ≠ 92) :
    consumeStringSlow (b :: rest) pos acc = consumeStringSlow rest (pos + 1) (acc ++ [b]) := by
  rw [consumeStringSlow.eq_def]
  show (if b = 34 then some (Except.ok (acc, rest, pos + 1)) else _) = _
  rw [if_neg h1, if_neg h2]

/-- Slow path: a simple escape resolves through `resolve_escape_sequence`. -/
lemma consumeStringSlow_escape (e ch : Nat) (rest : List Nat) (pos : Nat) (acc : List Nat)
    (he : e ≠ 117) (hres : resolveEscapeSequence e = some ch) :
    consumeStringSlow (92 :: e :: rest) pos acc =
      consumeStringSlow rest (pos + 2) (acc ++ [ch]) := by
  rw [consumeStringSlow.eq_def]
  simp only [show ¬((92 : Nat) = 34) by decide, if_false, if_pos rfl, if_neg he, hres]
  simp

/-- Slow path over a run of plain bytes up to the closing quote: each byte is
appended individually. -/
lemma consumeStringSlow_run :
    ∀ (q : List Nat) (rest : List Nat) (pos : Nat) (acc : List Nat),
      (∀ x ∈ q, x ≠ 34 ∧ x ≠ 92) →
      consumeStringSlow (q ++ 34 :: rest) pos acc =
        some (.ok (acc ++ q, rest, pos + q.length + 1)) := by
  intro q
  induction q with
  | nil =>
    intro rest pos acc _
    simpa using consumeStringSlow_quote rest pos acc
  | cons b q' ih =>
    intro rest pos acc h
    have hb := h b (by simp)
    show consumeStringSlow (b :: (q' ++ 34 :: rest)) pos acc = _
    rw [consumeStringSlow_plain _ _ _ _ hb.1 hb.2,
      ih rest (pos + 1) (acc ++ [b]) (fun x hx => h x (by simp [hx]))]
    simp
    omega

/-- Fast path: a closing quote returns the decoded scanned slice. -/
lemma consumeString_quote (rest : List Nat) (pos : Nat) (accB : List Nat) :
    consumeString (34 :: rest) pos accB = some (.ok (utf8Decode accB, rest, pos + 1)) := by
  rw [consumeString.eq_def]
  rfl

/-- Fast path: a backslash hands over to the slow path, still at the backslash. -/
lemma consumeString_backslash (rest : List Nat) (pos : Nat) (accB : List Nat) :
    consumeString (92 :: rest) pos accB =
      consumeStringSlow (92 :: rest) pos (utf8Decode accB) := by
  rw [consumeString.eq_def]
  show (if (92 : Nat) = 34 then _ else _) = _
  rw [if_neg (by decide), if_pos rfl]

/-- Fast path: an ordinary byte is scanned over. -/
lemma consumeString_plain (b : Nat) (rest : List Nat) (pos : Nat) (accB : List Nat)
    (h1 : b ≠ 34) (h2 : b ≠ 92) :
    consumeString (b :: rest) pos accB = consumeString rest (pos + 1) (accB ++ [b]) := by
  rw [consumeString.eq_def]
  show (if b = 34 then _ else _) = _
  rw [if_neg h1, if_neg h2]

/-- Fast path over a run of ordinary bytes. -/
lemma consumeString_plain_run :
    ∀ (p : List Nat) (tail : List Nat) (pos : Nat) (accB : List Nat),
      (∀ x ∈ p, x ≠ 34 ∧ x ≠ 92) →
      consumeString (p ++ tail) pos accB = consumeString tail (pos + p.length) (accB ++ p) := by
  intro p
  induction p with
  | nil =>
    intro tail pos accB _
    simp
  | cons b p' ih =>
    intro tail pos accB h
    have hb := h b (by simp)
    show consumeString (b :: (p' ++ tail)) pos accB = _
    rw [consumeString_plain _ _ _ _ hb.1 hb.2,
      ih tail (pos + 1) (accB ++ [b]) (fun x hx => h x (by simp [hx]))]
    simp only [List.append_assoc, List.singleton_append, List.length_cons]
    congr 1
    omega

/-- One scanner iteration on an opening quote. -/
lemma tokenizeLoop_quote (fuel : Nat) (rest : List Nat) (pos : Nat) (acc : List Token) :
    tokenizeLoop (fuel + 1) (34 :: rest) pos acc =
      match consumeString rest (pos + 1) [] with
      | some (.ok (s, rest2, pos2)) => tokenizeLoop fuel rest2 pos2 (acc ++ [.string s])
      | some (.error e) => some (.error e)
      | none => none := by
  rw [tokenizeLoop.eq_def]
  rfl

/-- Structural induction for the nested `JsonValue` type. -/
lemma JsonValue.inductionOn (P : JsonValue → Prop)
    (hs : ∀ s, P (.string s))
    (hn : ∀ n, P (.number n))
    (hb : ∀ b, P (.boolean b))
    (hnull : P .null)
    (harr : ∀ items, (∀ v ∈ items, P v) → P (.array items))
    (hobj : ∀ es, (∀ kv ∈ es, P kv.2) → P (.object es)) :
    ∀ v, P v := by
  have main : ∀ n v, sizeOf v ≤ n → P v := by
    intro n
    induction n with
    | zero =>
      intro v h
      cases v <;> simp at h
    | succ m ih =>
      intro v hle
      cases v with
      | string s => exact hs s
      | number q => exact hn q
      | boolean b => exact hb b
      | null => exact hnull
      | array items =>
        apply harr
        intro x hx
        apply ih
        have h1 : sizeOf x < sizeOf items := List.sizeOf_lt_of_mem hx
        have h2 : sizeOf (JsonValue.array items) = 1 + sizeOf items := by simp
        omega
      | object es =>
        apply hobj
        intro kv hkv
        apply ih
        have h1 : sizeOf kv < sizeOf es := List.sizeOf_lt_of_mem hkv
        have h2 : sizeOf kv.2 < sizeOf kv := by
          obtain ⟨a, b⟩ := kv
          simp
        have h3 : sizeOf (JsonValue.object es) = 1 + sizeOf es := by simp
        omega
  exact fun v => main (sizeOf v) v le_rfl

lemma GVal_head_opener {ts : List Token} {v : JsonValue} (h : GVal ts v) :
    ∃ t rest, ts = t :: rest ∧ t.isVariant Token.rightBracket = false ∧
      t.isVariant Token.rightBrace = false := by
  cases h with
  | str s => exact ⟨_, _, rfl, rfl, rfl⟩
  | num n => exact ⟨_, _, rfl, rfl, rfl⟩
  | boolean b => exact ⟨_, _, rfl, rfl, rfl⟩
  | null => exact ⟨_, _, rfl, rfl, rfl⟩
  | arrNil => exact ⟨_, _, rfl, rfl, rfl⟩
  | arr ts2 items _ => exact ⟨_, _, rfl, rfl, rfl⟩
  | objNil => exact ⟨_, _, rfl, rfl, rfl⟩
  | obj ts2 es _ => exact ⟨_, _, rfl, rfl, rfl⟩

lemma GItems_head_opener {ts : List Token} {items : List JsonValue} (h : GItems ts items) :
    ∃ t rest, ts = t :: rest ∧ t.isVariant Token.rightBracket = false ∧
      t.isVariant Token.rightBrace = false := by
  cases h with
  | single ts2 v hv => exact GVal_head_opener hv
  | cons ts2 v ts3 vs hv _ =>
    obtain ⟨t, r, rfl, h1, h2⟩ := GVal_head_opener hv
    exact ⟨t, _, rfl, h1, h2⟩

lemma value_step (n : Nat)
    (ihItems : ∀ ts items, GItems ts items → ts.length < n →
      ∀ fuel cur acc rest, 2 * ts.length + 2 ≤ fuel →
        parseArrayLoop fuel ⟨ts ++ Token.rightBracket :: rest, cur⟩ acc false =
          some (.ok (.array (acc ++ normL items), ⟨rest, cur + ts.length + 1⟩)))
    (ihEntries : ∀ ts es, GEntries ts es → ts.length < n →
      ∀ fuel cur key obj rest, 2 * ts.length + 2 ≤ fuel →
        parseObjectLoop fuel ⟨ts ++ Token.rightBrace :: rest, cur⟩ key obj false false =
          some (.ok (.object (normE obj es), ⟨rest, cur + ts.length + 1⟩))) :
    ∀ ts v, GVal ts v → ts.length ≤ n →
      (∀ f cur acc rest', 2 * ts.length ≤ f →
        parseArrayLoop (f + 1) ⟨ts ++ rest', cur⟩ acc false =
          parseArrayLoop f ⟨rest', cur + ts.length⟩ (acc ++ [normV v]) true)
      ∧ (∀ f cur key obj rest', 2 * ts.length ≤ f → rest' ≠ [] →
        parseObjectLoop (f + 1) ⟨ts ++ rest', cur⟩ key obj true false =
          parseObjectLoop f ⟨rest', cur + ts.length⟩ key (insertKV obj key (normV v)) false true) := by
  intro ts v h hlen
  cases h with
  | str s =>
    constructor
    · intro f cur acc rest' hf
      simp [parseArrayLoop, PState.peek, PState.advance, errOnMissingExpectedComma, normV]
    · intro f cur key obj rest' hf hne
      rcases rest' with _ | ⟨nx, rest''⟩
      · exact absurd rfl hne
      · simp [parseObjectLoop, PState.peek, PState.advance, PState.getNext,
          errOnMissingExpectedComma, nextTokenIsExpectedColon, normV]
  | num q =>
    constructor
    · intro f cur acc rest' hf
      simp [parseArrayLoop, PState.peek, PState.advance, errOnMissingExpectedComma, normV]
    · intro f cur key obj rest' hf hne
      simp [parseObjectLoop, PState.peek, PState.advance, errOnMissingExpectedComma,
        errOnUnexpectedValueBeforeColon, normV]
  | boolean b =>
    constructor
    · intro f cur acc rest' hf
      simp [parseArrayLoop, PState.peek, PState.advance, errOnMissingExpectedComma, normV]
    · intro f cur key obj rest' hf hne
      simp [parseObjectLoop, PState.peek, PState.advance, errOnMissingExpectedComma,
        errOnUnexpectedValueBeforeColon, normV]
  | null =>
    constructor
    · intro f cur acc rest' hf
      simp [parseArrayLoop, PState.peek, PState.advance, errOnMissingExpectedComma, normV]
    · intro f cur key obj rest' hf hne
      simp [parseObjectLoop, PState.peek, PState.advance, errOnMissingExpectedComma,
        errOnUnexpectedValueBeforeColon, normV]
  | arrNil =>
    have hnested : ∀ f cur (rest' : List Token), 4 ≤ f →
        parseArrayF f ⟨Token.leftBracket :: (Token.rightBracket :: rest'), cur⟩ =
          some (.ok (.array [], ⟨rest', cur + 2⟩)) := by
      intro f cur rest' hf
      obtain ⟨g, rfl⟩ : ∃ g, f = g + 2 := ⟨f - 2, by omega⟩
      simp [parseArrayF, parseArrayLoop, PState.advance, PState.peek]
    constructor
    · intro f cur acc rest' hf
      simp only [List.cons_append, List.singleton_append] at *
      simp [parseArrayLoop, PState.peek, errOnMissingExpectedComma,
        hnested f cur rest' (by simpa using hf), normV, normL]
    · intro f cur key obj rest' hf hne
      simp only [List.cons_append, List.singleton_append] at *
      simp [parseObjectLoop, PState.peek, errOnMissingExpectedComma,
        hnested f cur rest' (by simpa using hf), normV, normL]
  | objNil =>
    have hnested : ∀ f cur (rest' : List Token), 4 ≤ f →
        parseObjectF f ⟨Token.leftBrace :: (Token.rightBrace :: rest'), cur⟩ =
          some (.ok (.object [], ⟨rest', cur + 2⟩)) := by
      intro f cur rest' hf
      obtain ⟨g, rfl⟩ : ∃ g, f = g + 2 := ⟨f - 2, by omega⟩
      simp [parseObjectF, parseObjectLoop, PState.advance, PState.peek]
    constructor
    · intro f cur acc rest' hf
      simp only [List.cons_append, List.singleton_append] at *
      simp [parseArrayLoop, PState.peek, errOnMissingExpectedComma,
        hnested f cur rest' (by simpa using hf), normV, normE]
    · intro f cur key obj rest' hf hne
      simp only [List.cons_append, List.singleton_append] at *
      simp [parseObjectLoop, PState.peek, errOnMissingExpectedComma,
        hnested f cur rest' (by simpa using hf), normV, normE]
  | arr inner items hItems =>
    have hilt : inner.length < n := by
      simp at hlen
      omega
    have hnested : ∀ f cur (rest' : List Token), 2 * inner.length + 3 ≤ f →
        parseArrayF f ⟨Token.leftBracket :: (inner ++ Token.rightBracket :: rest'), cur⟩ =
          some (.ok (.array (normL items), ⟨rest', cur + (inner.length + 2)⟩)) := by
      intro f cur rest' hf
      obtain ⟨g, rfl⟩ : ∃ g, f = g + 1 := ⟨f - 1, by omega⟩
      have hstep : parseArrayF (g + 1)
          ⟨Token.leftBracket :: (inner ++ Token.rightBracket :: rest'), cur⟩ =
          parseArrayLoop g ⟨inner ++ Token.rightBracket :: rest', cur + 1⟩ [] false := by
        simp [parseArrayF, PState.advance]
      rw [hstep, ihItems inner items hItems hilt g (cur + 1) [] rest' (by omega)]
      have harith : cur + 1 + inner.length + 1 = cur + (inner.length + 2) := by omega
      rw [harith]
      simp
    constructor
    · intro f cur acc rest' hf
      have hf2 : 2 * (inner.length + 2) ≤ f := by simpa using hf
      simp only [List.cons_append, List.append_assoc, List.singleton_append] at *
      simp [parseArrayLoop, PState.peek, errOnMissingExpectedComma,
        hnested f cur rest' (by omega), normV]
    · intro f cur key obj rest' hf hne
      have hf2 : 2 * (inner.length + 2) ≤ f := by simpa using hf
      simp only [List.cons_append, List.append_assoc, List.singleton_append] at *
      simp [parseObjectLoop, PState.peek, errOnMissingExpectedComma,
        hnested f cur rest' (by omega), normV]
  | obj inner es hEntries =>
    have hilt : inner.length < n := by
      simp at hlen
      omega
    have hnested : ∀ f cur (rest' : List Token), 2 * inner.length + 3 ≤ f →
        parseObjectF f ⟨Token.leftBrace :: (inner ++ Token.rightBrace :: rest'), cur⟩ =
          some (.ok (.object (normE [] es), ⟨rest', cur + (inner.length + 2)⟩)) := by
      intro f cur rest' hf
      obtain ⟨g, rfl⟩ : ∃ g, f = g + 1 := ⟨f - 1, by omega⟩
      have hstep : parseObjectF (g + 1)
          ⟨Token.leftBrace :: (inner ++ Token.rightBrace :: rest'), cur⟩ =
          parseObjectLoop g ⟨inner ++ Token.rightBrace :: rest', cur + 1⟩ [] [] false false := by
        simp [parseObjectF, PState.advance]
      rw [hstep, ihEntries inner es hEntries hilt g (cur + 1) [] [] rest' (by omega)]
      have harith : cur + 1 + inner.length + 1 = cur + (inner.length + 2) := by omega
      rw [harith]
    constructor
    · intro f cur acc rest' hf
      have hf2 : 2 * (inner.length + 2) ≤ f := by simpa using hf
      simp only [List.cons_append, List.append_assoc, List.singleton_append] at *
      simp [parseArrayLoop, PState.peek, errOnMissingExpectedComma,
        hnested f cur rest' (by omega), normV]
    · intro f cur key obj rest' hf hne
      have hf2 : 2 * (inner.length + 2) ≤ f := by simpa using hf
      simp only [List.cons_append, List.append_assoc, List.singleton_append] at *
      simp [parseObjectLoop, PState.peek, errOnMissingExpectedComma,
        hnested f cur rest' (by omega), normV]

lemma items_loop (n : Nat)
    (hVal : ∀ ts v, GVal ts v → ts.length ≤ n →
      (∀ f cur acc rest', 2 * ts.length ≤ f →
        parseArrayLoop (f + 1) ⟨ts ++ rest', cur⟩ acc false =
          parseArrayLoop f ⟨rest', cur + ts.length⟩ (acc ++ [normV v]) true)
      ∧ (∀ f cur key obj rest', 2 * ts.length ≤ f → rest' ≠ [] →
        parseObjectLoop (f + 1) ⟨ts ++ rest', cur⟩ key obj true false =
          parseObjectLoop f ⟨rest', cur + ts.length⟩ key (insertKV obj key (normV v)) false true))
    (ihItems : ∀ ts items, GItems ts items → ts.length < n →
      ∀ fuel cur acc rest, 2 * ts.length + 2 ≤ fuel →
        parseArrayLoop fuel ⟨ts ++ Token.rightBracket :: rest, cur⟩ acc false =
          some (.ok (.array (acc ++ normL items), ⟨rest, cur + ts.length + 1⟩))) :
    ∀ ts items, GItems ts items → ts.length ≤ n →
      ∀ fuel cur acc rest, 2 * ts.length + 2 ≤ fuel →
        parseArrayLoop fuel ⟨ts ++ Token.rightBracket :: rest, cur⟩ acc false =
          some (.ok (.array (acc ++ normL items), ⟨rest, cur + ts.length + 1⟩)) := by
  intro ts items h hlen fuel cur acc rest hfuel
  cases h with
  | single _ v hv =>
    obtain ⟨f, rfl⟩ : ∃ f, fuel = f + 1 := ⟨fuel - 1, by omega⟩
    rw [(hVal ts v hv hlen).1 f cur acc (Token.rightBracket :: rest) (by omega)]
    obtain ⟨g, rfl⟩ : ∃ g, f = g + 1 := ⟨f - 1, by omega⟩
    simp [parseArrayLoop, PState.peek, PState.advance, normL]
  | cons tsv v ts2 vs hv hIt2 =>
    have hshape : (tsv ++ Token.comma :: ts2) ++ Token.rightBracket :: rest =
        tsv ++ (Token.comma :: (ts2 ++ Token.rightBracket :: rest)) := by
      simp
    rw [hshape]
    have hlen1 : tsv.length ≤ n := by
      simp at hlen
      omega
    have hlen2 : ts2.length < n := by
      simp at hlen
      omega
    have hfuel2 : 2 * (tsv.length + (ts2.length + 1)) + 2 ≤ fuel := by
      simpa using hfuel
    obtain ⟨f, rfl⟩ : ∃ f, fuel = f + 1 := ⟨fuel - 1, by omega⟩
    rw [(hVal tsv v hv hlen1).1 f cur acc _ (by omega)]
    obtain ⟨g, rfl⟩ : ∃ g, f = g + 1 := ⟨f - 1, by omega⟩
    obtain ⟨t2, r2, rfl, ht2a, ht2b⟩ := GItems_head_opener hIt2
    have hcomma : parseArrayLoop (g + 1)
        ⟨Token.comma :: ((t2 :: r2) ++ Token.rightBracket :: rest), cur + tsv.length⟩
        (acc ++ [normV v]) true =
        parseArrayLoop g ⟨(t2 :: r2) ++ Token.rightBracket :: rest, cur + tsv.length + 1⟩
          (acc ++ [normV v]) false := by
      simp [parseArrayLoop, PState.peek, PState.advance, errOnUnexpectedComma,
        errOnUnexpectedClosingToken, ht2a]
    rw [hcomma]
    rw [ihItems (t2 :: r2) vs hIt2 hlen2 g (cur + tsv.length + 1) (acc ++ [normV v]) rest
      (by simp at hfuel2 ⊢; omega)]
    have harith : cur + tsv.length + 1 + (t2 :: r2).length + 1 =
        cur + (tsv ++ Token.comma :: t2 :: r2).length + 1 := by
      simp
      omega
    rw [harith]
    simp [normL]

lemma entries_loop (n : Nat)
    (hVal : ∀ ts v, GVal ts v → ts.length ≤ n →
      (∀ f cur acc rest', 2 * ts.length ≤ f →
        parseArrayLoop (f + 1) ⟨ts ++ rest', cur⟩ acc false =
          parseArrayLoop f ⟨rest', cur + ts.length⟩ (acc ++ [normV v]) true)
      ∧ (∀ f cur key obj rest', 2 * ts.length ≤ f → rest' ≠ [] →
        parseObjectLoop (f + 1) ⟨ts ++ rest', cur⟩ key obj true false =
          parseObjectLoop f ⟨rest', cur + ts.length⟩ key (insertKV obj key (normV v)) false true))
    (ihEntries : ∀ ts es, GEntries ts es → ts.length < n →
      ∀ fuel cur key obj rest, 2 * ts.length + 2 ≤ fuel →
        parseObjectLoop fuel ⟨ts ++ Token.rightBrace :: rest, cur⟩ key obj false false =
          some (.ok (.object (normE obj es), ⟨rest, cur + ts.length + 1⟩))) :
    ∀ ts es, GEntries ts es → ts.length ≤ n →
      ∀ fuel cur key obj rest, 2 * ts.length + 2 ≤ fuel →
        parseObjectLoop fuel ⟨ts ++ Token.rightBrace :: rest, cur⟩ key obj false false =
          some (.ok (.object (normE obj es), ⟨rest, cur + ts.length + 1⟩)) := by
  intro ts es h hlen fuel cur key obj rest hfuel
  cases h with
  | single k tsv v hv =>
    have hf : 2 * tsv.length + 6 ≤ fuel := by
      simpa using hfuel
    have hlenv : tsv.length ≤ n := by
      simp at hlen
      omega
    obtain ⟨f1, rfl⟩ : ∃ f1, fuel = f1 + 1 := ⟨fuel - 1, by omega⟩
    have hkey : parseObjectLoop (f1 + 1)
        ⟨(Token.string k :: Token.colon :: tsv) ++ Token.rightBrace :: rest, cur⟩
          key obj false false =
        parseObjectLoop f1 ⟨Token.colon :: (tsv ++ Token.rightBrace :: rest), cur + 1⟩
          k obj false false := by
      simp [parseObjectLoop, PState.peek, PState.advance, PState.getNext,
        errOnMissingExpectedComma, nextTokenIsExpectedColon]
    rw [hkey]
    obtain ⟨f2, rfl⟩ : ∃ f2, f1 = f2 + 1 := ⟨f1 - 1, by omega⟩
    have hcolon : parseObjectLoop (f2 + 1)
        ⟨Token.colon :: (tsv ++ Token.rightBrace :: rest), cur + 1⟩ k obj false false =
        parseObjectLoop f2 ⟨tsv ++ Token.rightBrace :: rest, cur + 2⟩ k obj true false := by
      simp [parseObjectLoop, PState.peek, PState.advance]
    rw [hcolon]
    obtain ⟨f3, rfl⟩ : ∃ f3, f2 = f3 + 1 := ⟨f2 - 1, by omega⟩
    rw [(hVal tsv v hv hlenv).2 f3 (cur + 2) k obj (Token.rightBrace :: rest)
      (by omega) (by simp)]
    obtain ⟨f4, rfl⟩ : ∃ f4, f3 = f4 + 1 := ⟨f3 - 1, by omega⟩
    have harith : cur + 2 + tsv.length + 1 =
        cur + (Token.string k :: Token.colon :: tsv).length + 1 := by
      simp
      omega
    simp [parseObjectLoop, PState.peek, PState.advance, normE]
    omega
  | cons k tsv v ts2 es2 hv hE2 =>
    have hf : 2 * (tsv.length + (ts2.length + 1)) + 6 ≤ fuel := by
      simpa using hfuel
    have hlenv : tsv.length ≤ n := by
      simp at hlen
      omega
    have hlen2 : ts2.length < n := by
      simp at hlen
      omega
    have hshape : (Token.string k :: Token.colon :: tsv ++ Token.comma :: ts2) ++
        Token.rightBrace :: rest =
        Token.string k :: Token.colon :: (tsv ++
          (Token.comma :: (ts2 ++ Token.rightBrace :: rest))) := by
      simp
    rw [hshape]
    obtain ⟨f1, rfl⟩ : ∃ f1, fuel = f1 + 1 := ⟨fuel - 1, by omega⟩
    have hkey : parseObjectLoop (f1 + 1)
        ⟨Token.string k :: Token.colon ::
          (tsv ++ (Token.comma :: (ts2 ++ Token.rightBrace :: rest))), cur⟩ key obj false false =
        parseObjectLoop f1 ⟨Token.colon ::
          (tsv ++ (Token.comma :: (ts2 ++ Token.rightBrace :: rest))), cur + 1⟩
          k obj false false := by
      simp [parseObjectLoop, PState.peek, PState.advance, PState.getNext,
        errOnMissingExpectedComma, nextTokenIsExpectedColon]
    rw [hkey]
    obtain ⟨f2, rfl⟩ : ∃ f2, f1 = f2 + 1 := ⟨f1 - 1, by omega⟩
    have hcolon : parseObjectLoop (f2 + 1)
        ⟨Token.colon :: (tsv ++ (Token.comma :: (ts2 ++ Token.rightBrace :: rest))), cur + 1⟩
          k obj false false =
        parseObjectLoop f2 ⟨tsv ++ (Token.comma :: (ts2 ++ Token.rightBrace :: rest)), cur + 2⟩
          k obj true false := by
      simp [parseObjectLoop, PState.peek, PState.advance]
    rw [hcolon]
    obtain ⟨f3, rfl⟩ : ∃ f3, f2 = f3 + 1 := ⟨f2 - 1, by omega⟩
    rw [(hVal tsv v hv hlenv).2 f3 (cur + 2) k obj
      (Token.comma :: (ts2 ++ Token.rightBrace :: rest)) (by omega) (by simp)]
    obtain ⟨f4, rfl⟩ : ∃ f4, f3 = f4 + 1 := ⟨f3 - 1, by omega⟩
    obtain ⟨k2, r2, rfl⟩ := GEntries_starts_with_string hE2
    have hcomma : parseObjectLoop (f4 + 1)
        ⟨Token.comma :: ((Token.string k2 :: r2) ++ Token.rightBrace :: rest),
          cur + 2 + tsv.length⟩ k (insertKV obj k (normV v)) false true =
        parseObjectLoop f4 ⟨(Token.string k2 :: r2) ++ Token.rightBrace :: rest,
          cur + 2 + tsv.length + 1⟩ k (insertKV obj k (normV v)) false false := by
      simp [parseObjectLoop, PState.peek, PState.advance, errOnUnexpectedComma,
        errOnUnexpectedClosingToken, Token.isVariant]
    rw [hcomma]
    rw [ihEntries (Token.string k2 :: r2) es2 hE2 hlen2 f4 (cur + 2 + tsv.length + 1)
      k (insertKV obj k (normV v)) rest (by simp at hf ⊢; omega)]
    have harith : cur + 2 + tsv.length + 1 + (Token.string k2 :: r2).length + 1 =
        cur + (Token.string k :: Token.colon :: tsv ++
          Token.comma :: Token.string k2 :: r2).length + 1 := by
      simp
      omega
    rw [harith]
    simp [normE]

lemma parser_complete_rec : ∀ n : Nat,
    (∀ ts items, GItems ts items → ts.length ≤ n →
      ∀ fuel cur acc rest, 2 * ts.length + 2 ≤ fuel →
        parseArrayLoop fuel ⟨ts ++ Token.rightBracket :: rest, cur⟩ acc false =
          some (.ok (.array (acc ++ normL items), ⟨rest, cur + ts.length + 1⟩)))
    ∧ (∀ ts es, GEntries ts es → ts.length ≤ n →
      ∀ fuel cur key obj rest, 2 * ts.length + 2 ≤ fuel →
        parseObjectLoop fuel ⟨ts ++ Token.rightBrace :: rest, cur⟩ key obj false false =
          some (.ok (.object (normE obj es), ⟨rest, cur + ts.length + 1⟩))) := by
  intro n
  induction n using Nat.strong_induction_on with
  | _ n ih =>
    have ihItems : ∀ ts items, GItems ts items → ts.length < n →
        ∀ fuel cur acc rest, 2 * ts.length + 2 ≤ fuel →
          parseArrayLoop fuel ⟨ts ++ Token.rightBracket :: rest, cur⟩ acc false =
            some (.ok (.array (acc ++ normL items), ⟨rest, cur + ts.length + 1⟩)) := by
      intro ts items h hlt
      exact (ih ts.length hlt).1 ts items h le_rfl
    have ihEntries : ∀ ts es, GEntries ts es → ts.length < n →
        ∀ fuel cur key obj rest, 2 * ts.length + 2 ≤ fuel →
          parseObjectLoop fuel ⟨ts ++ Token.rightBrace :: rest, cur⟩ key obj false false =
            some (.ok (.object (normE obj es), ⟨rest, cur + ts.length + 1⟩)) := by
      intro ts es h hlt
      exact (ih ts.length hlt).2 ts es h le_rfl
    have hVal := value_step n ihItems ihEntries
    exact ⟨items_loop n hVal ihItems, entries_loop n hVal ihEntries⟩

lemma parse_tokens_complete : ∀ ts v, GVal ts v → parseTokens ts = some (.ok (normV v)) := by
  intro ts v h
  cases h with
  | str s => simp [parseTokens, parseFuel, parseValueF, parsePrimitive, PState.peek, normV]
  | num q => simp [parseTokens, parseFuel, parseValueF, parsePrimitive, PState.peek, normV]
  | boolean b => simp [parseTokens, parseFuel, parseValueF, parsePrimitive, PState.peek, normV]
  | null => simp [parseTokens, parseFuel, parseValueF, parsePrimitive, PState.peek, normV]
  | arrNil => decide
  | objNil => decide
  | arr inner items hItems =>
    have hloop := (parser_complete_rec inner.length).1 inner items hItems le_rfl
      (2 * inner.length + 6) 1 [] [] (by omega)
    unfold parseTokens
    have hfuel : parseFuel (Token.leftBracket :: inner ++ [Token.rightBracket]).length =
        (2 * inner.length + 6) + 1 + 1 := by
      simp [parseFuel]
      omega
    rw [hfuel]
    have hstep : parseValueF ((2 * inner.length + 6) + 1 + 1)
        ⟨Token.leftBracket :: inner ++ [Token.rightBracket], 0⟩ =
        parseArrayLoop (2 * inner.length + 6)
          ⟨inner ++ Token.rightBracket :: [], 1⟩ [] false := by
      simp [parseValueF, parseArrayF, PState.peek, PState.advance]
    rw [hstep, hloop]
    simp [normV]
  | obj inner es hEntries =>
    have hloop := (parser_complete_rec inner.length).2 inner es hEntries le_rfl
      (2 * inner.length + 6) 1 [] [] [] (by omega)
    unfold parseTokens
    have hfuel : parseFuel (Token.leftBrace :: inner ++ [Token.rightBrace]).length =
        (2 * inner.length + 6) + 1 + 1 := by
      simp [parseFuel]
      omega
    rw [hfuel]
    have hstep : parseValueF ((2 * inner.length + 6) + 1 + 1)
        ⟨Token.leftBrace :: inner ++ [Token.rightBrace], 0⟩ =
        parseObjectLoop (2 * inner.length + 6)
          ⟨inner ++ Token.rightBrace :: [], 1⟩ [] [] false false := by
      simp [parseValueF, parseObjectF, PState.peek, PState.advance]
    rw [hstep, hloop]
    simp [normV]

/-! ## Digit, number and escape lemmas for the round-trip -/

lemma takeWhile_all {p : Nat → Bool} : ∀ xs : List Nat, (∀ x ∈ xs, p x = true) →
    xs.takeWhile p = xs := by
  intro xs h
  induction xs with
  | nil => rfl
  | cons x rest ih =>
    rw [List.takeWhile_cons, h x (by simp)]
    simp [ih (fun y hy => h y (by simp [hy]))]

lemma takeWhile_append_sep {p : Nat → Bool} : ∀ xs ys : List Nat,
    (∀ x ∈ xs, p x = true) → (∀ y ∈ ys.head?, p y = false) →
    (xs ++ ys).takeWhile p = xs := by
  intro xs ys hx hy
  induction xs with
  | nil =>
    cases ys with
    | nil => rfl
    | cons y t =>
      simp only [List.nil_append, List.takeWhile_cons]
      rw [hy y (by simp)]
      simp
  | cons x rest ih =>
    simp only [List.cons_append, List.takeWhile_cons]
    rw [hx x (by simp)]
    simp [ih (fun z hz => hx z (by simp [hz]))]

lemma natToDigitsAux_ne_nil (fuel n : Nat) : natToDigitsAux (fuel + 1) n ≠ [] := by
  rw [natToDigitsAux]
  split <;> simp

lemma digitsToNat_append_digit (xs : List Nat) (d : Nat) :
    digitsToNat (xs ++ [d]) = 10 * digitsToNat xs + (d - 48) := by
  unfold digitsToNat
  rw [List.foldl_append]
  simp
  omega

lemma digitsToNat_natToDigitsAux : ∀ fuel n, n < 10 ^ fuel →
    digitsToNat (natToDigitsAux fuel n) = n := by
  intro fuel
  induction fuel with
  | zero =>
    intro n h
    simp at h
    simp [h, natToDigitsAux, digitsToNat]
  | succ m ih =>
    intro n h
    rw [natToDigitsAux]
    by_cases hn : n < 10
    · rw [if_pos hn]
      simp [digitsToNat]
    · rw [if_neg hn]
      rw [digitsToNat_append_digit]
      have hdiv : n / 10 < 10 ^ m := by
        apply Nat.div_lt_of_lt_mul
        calc n < 10 ^ (m + 1) := h
        _ = 10 * 10 ^ m := by ring
      rw [ih (n / 10) hdiv]
      omega

lemma digitsToNat_natToChars (n : Nat) : digitsToNat (natToChars n) = n := by
  unfold natToChars
  apply digitsToNat_natToDigitsAux
  calc n < 10 ^ n := Nat.lt_pow_self (by norm_num) n
  _ ≤ 10 ^ (n + 1) := Nat.pow_le_pow_right (by norm_num) (by omega)

lemma natToChars_digits (n : Nat) : ∀ c ∈ natToChars n, isAsciiDigit c = true := by
  intro c hc
  have := natToDigitsAux_mem_range _ _ _ hc
  simp [isAsciiDigit]
  omega

lemma natToChars_ne_nil (n : Nat) : natToChars n ≠ [] := natToDigitsAux_ne_nil n n

lemma natGcd_one_right : ∀ m, natGcd m 1 = 1 := by
  intro m
  match m with
  | 0 => rfl
  | 1 => rfl
  | k + 2 =>
    show gcdAux (k + 3) (k + 2) 1 = 1
    rw [gcdAux, if_neg (by omega)]
    rw [Nat.mod_eq_of_lt (by omega)]
    rw [gcdAux, if_neg (by omega)]
    rw [Nat.mod_one]
    rw [gcdAux, if_pos rfl]

lemma qNormalize_int (i : Int) : qNormalize i 1 = ⟨i, 1⟩ := by
  unfold qNormalize
  rw [if_neg (show ¬(1 = 0) by omega)]
  simp only [natGcd_one_right, Nat.div_one]
  by_cases hi : 0 ≤ i
  · rw [if_pos hi]
    rw [Int.ofNat_eq_natCast]
    congr 1
    omega
  · rw [if_neg hi]
    rw [Int.ofNat_eq_natCast]
    congr 1
    omega

lemma q_add_zero_frac (n : Nat) :
    (Q.ofNat n).add ((Q.ofNat 0).div ((Q.ofNat 10).pow 0)) = ⟨(n : Int), 1⟩ := by
  have h1 : (Q.ofNat 0).div ((Q.ofNat 10).pow 0) = (⟨0, 1⟩ : Q) := by decide
  rw [h1]
  show qNormalize (Int.ofNat n * (1 : Nat) + 0 * (1 : Nat)) (1 * 1) = _
  have h2 : (Int.ofNat n * (1 : Nat) + 0 * (1 : Nat)) = (n : Int) := by
    simp
  rw [h2]
  exact qNormalize_int _

lemma parseF64_digits (ds : List Nat) (hne : ds ≠ [])
    (hall : ∀ x ∈ ds, isAsciiDigit x = true) :
    parseF64 ds = some ⟨(digitsToNat ds : Int), 1⟩ := by
  obtain ⟨c, cs, rfl⟩ : ∃ c cs, ds = c :: cs := by
    cases ds with
    | nil => exact absurd rfl hne
    | cons c cs => exact ⟨c, cs, rfl⟩
  have hcd : 48 ≤ c ∧ c ≤ 57 := by
    have := hall c (by simp)
    simp [isAsciiDigit] at this
    omega
  unfold parseF64
  simp only [List.head?_cons]
  rw [if_neg (show ¬(some c = some 45 ∨ some c = some 43) by simp; omega)]
  rw [takeWhile_all _ hall]
  rw [List.drop_length]
  simp only [List.head?_nil]
  rw [if_neg (show ¬((none : Option Nat) = some 46) by simp)]
  rw [if_neg (show ¬(c :: cs = [] ∧ ([] : List Nat) = []) by simp)]
  simp only [if_neg (show ¬(some c = some 45) by simp; omega)]
  show some ((Q.ofNat (digitsToNat (c :: cs))).add
      ((Q.ofNat 0).div ((Q.ofNat 10).pow 0))) = _
  rw [q_add_zero_frac]

lemma parseF64_neg_digits (ds : List Nat) (hne : ds ≠ [])
    (hall : ∀ x ∈ ds, isAsciiDigit x = true) :
    parseF64 (45 :: ds) = some ⟨-(digitsToNat ds : Int), 1⟩ := by
  obtain ⟨c, cs, rfl⟩ : ∃ c cs, ds = c :: cs := by
    cases ds with
    | nil => exact absurd rfl hne
    | cons c cs => exact ⟨c, cs, rfl⟩
  have hcd : 48 ≤ c ∧ c ≤ 57 := by
    have := hall c (by simp)
    simp [isAsciiDigit] at this
    omega
  unfold parseF64
  simp only [List.head?_cons, List.tail_cons]
  rw [if_pos (Or.inl trivial : True ∨ some (45 : Nat) = some 43)]
  rw [takeWhile_all _ hall]
  rw [List.drop_length]
  simp only [List.head?_nil]
  rw [if_neg (show ¬((none : Option Nat) = some 46) by simp)]
  rw [if_neg (show ¬(c :: cs = [] ∧ ([] : List Nat) = []) by simp)]
  rw [if_pos (trivial : True)]
  show some (((Q.ofNat (digitsToNat (c :: cs))).add
      ((Q.ofNat 0).div ((Q.ofNat 10).pow 0))).neg) = _
  rw [q_add_zero_frac]
  rfl

lemma intToChars_numchars (i : Int) : ∀ x ∈ intToChars i, isNumberChar x = true := by
  intro x hx
  unfold intToChars at hx
  by_cases hi : i < 0
  · rw [if_pos hi] at hx
    simp at hx
    rcases hx with rfl | hx
    · simp [isNumberChar]
    · have := natToDigitsAux_mem_range _ _ _ hx
      simp [isNumberChar, isAsciiDigit]
      omega
  · rw [if_neg hi] at hx
    have := natToDigitsAux_mem_range _ _ _ hx
    simp [isNumberChar, isAsciiDigit]
    omega

lemma parseF64_intToChars (i : Int) : parseF64 (intToChars i) = some ⟨i, 1⟩ := by
  unfold intToChars
  by_cases hi : i < 0
  · rw [if_pos hi]
    rw [parseF64_neg_digits _ (natToChars_ne_nil _) (natToChars_digits _)]
    rw [digitsToNat_natToChars]
    congr 2
    omega
  · rw [if_neg hi]
    rw [parseF64_digits _ (natToChars_ne_nil _) (natToChars_digits _)]
    rw [digitsToNat_natToChars]
    congr 2
    omega

lemma den_one_trunc {q : Q} (h : q.den = 1) : Q.ofInt q.trunc = q := by
  obtain ⟨num, den⟩ := q
  simp at h
  subst h
  unfold Q.trunc Q.ofInt
  simp only [Int.ofNat_eq_natCast, Nat.div_one]
  by_cases hn : 0 ≤ num
  · rw [if_pos hn]
    congr 1
    omega
  · rw [if_neg hn]
    congr 1
    omega

lemma fmtF64_int {q : Q} (h : q.den = 1) : fmtF64 q = intToChars q.num := by
  unfold fmtF64
  rw [if_pos (den_one_trunc h)]
  congr 1
  have := congrArg Q.num (den_one_trunc h)
  simpa [Q.ofInt] using this


lemma escapeChar_cases (c : Nat) :
    (∃ e, escapeChar c = [92, e] ∧ e ≠ 117 ∧ resolveEscapeSequence e = some c) ∨
    (escapeChar c = [c] ∧ c ≠ 34 ∧ c ≠ 92) := by
  by_cases h1 : c = 34
  · subst h1; exact Or.inl ⟨34, by decide, by decide, by decide⟩
  by_cases h2 : c = 92
  · subst h2; exact Or.inl ⟨92, by decide, by decide, by decide⟩
  by_cases h3 : c = 10
  · subst h3; exact Or.inl ⟨110, by decide, by decide, by decide⟩
  by_cases h4 : c = 9
  · subst h4; exact Or.inl ⟨116, by decide, by decide, by decide⟩
  by_cases h5 : c = 13
  · subst h5; exact Or.inl ⟨114, by decide, by decide, by decide⟩
  by_cases h6 : c = 8
  · subst h6; exact Or.inl ⟨98, by decide, by decide, by decide⟩
  by_cases h7 : c = 12
  · subst h7; exact Or.inl ⟨102, by decide, by decide, by decide⟩
  refine Or.inr ⟨?_, h1, h2⟩
  unfold escapeChar
  rw [if_neg h1, if_neg h2, if_neg h3, if_neg h4, if_neg h5, if_neg h6, if_neg h7]

lemma consumeStringSlow_escaped : ∀ (s rest : List Nat) (pos : Nat) (acc : List Nat),
    ∃ p2, consumeStringSlow (escapeJsonString s ++ 34 :: rest) pos acc =
      some (.ok (acc ++ s, rest, p2)) := by
  intro s
  induction s with
  | nil =>
    intro rest pos acc
    exact ⟨pos + 1, by simpa using consumeStringSlow_quote rest pos acc⟩
  | cons c s2 ih =>
    intro rest pos acc
    have hesc : escapeJsonString (c :: s2) = escapeChar c ++ escapeJsonString s2 := by
      simp [escapeJsonString]
    rcases escapeChar_cases c with ⟨e, hec, he117, hres⟩ | ⟨hec, h34, h92⟩
    · obtain ⟨p2, hp⟩ := ih rest (pos + 2) (acc ++ [c])
      refine ⟨p2, ?_⟩
      rw [hesc, hec]
      show consumeStringSlow (92 :: e :: (escapeJsonString s2 ++ 34 :: rest)) pos acc = _
      rw [consumeStringSlow_escape e c _ _ _ he117 hres, hp]
      simp
    · obtain ⟨p2, hp⟩ := ih rest (pos + 1) (acc ++ [c])
      refine ⟨p2, ?_⟩
      rw [hesc, hec]
      show consumeStringSlow (c :: (escapeJsonString s2 ++ 34 :: rest)) pos acc = _
      rw [consumeStringSlow_plain c _ _ _ h34 h92, hp]
      simp

lemma consumeString_escaped : ∀ (s rest : List Nat) (pos : Nat) (accB : List Nat),
    (∀ c ∈ s, c < 128) → (∀ c ∈ accB, c < 128) →
    ∃ p2, consumeString (escapeJsonString s ++ 34 :: rest) pos accB =
      some (.ok (accB ++ s, rest, p2)) := by
  intro s
  induction s with
  | nil =>
    intro rest pos accB _ hB
    refine ⟨pos + 1, ?_⟩
    show consumeString (34 :: rest) pos accB = _
    rw [consumeString_quote, utf8Decode_ascii accB hB]
    simp
  | cons c s2 ih =>
    intro rest pos accB hs hB
    have hc : c < 128 := hs c (by simp)
    have hs2 : ∀ x ∈ s2, x < 128 := fun x hx => hs x (by simp [hx])
    have hesc : escapeJsonString (c :: s2) = escapeChar c ++ escapeJsonString s2 := by
      simp [escapeJsonString]
    rcases escapeChar_cases c with ⟨e, hec, he117, hres⟩ | ⟨hec, h34, h92⟩
    · obtain ⟨p2, hp⟩ := consumeStringSlow_escaped s2 rest (pos + 2) (accB ++ [c])
      refine ⟨p2, ?_⟩
      rw [hesc, hec]
      show consumeString (92 :: (e :: (escapeJsonString s2 ++ 34 :: rest))) pos accB = _
      rw [consumeString_backslash, utf8Decode_ascii accB hB,
        consumeStringSlow_escape e c _ _ _ he117 hres, hp]
      simp
    · obtain ⟨p2, hp⟩ := ih rest (pos + 1) (accB ++ [c]) hs2
        (by intro x hx; simp at hx; rcases hx with hx | rfl; exact hB x hx; exact hc)
      refine ⟨p2, ?_⟩
      rw [hesc, hec]
      show consumeString (c :: (escapeJsonString s2 ++ 34 :: rest)) pos accB = _
      rw [consumeString_plain c _ _ _ h34 h92, hp]
      simp


lemma consumeString_key (k : List Nat) (rest : List Nat) (pos : Nat)
    (hk : ∀ c ∈ k, c < 128 ∧ c ≠ 34 ∧ c ≠ 92) :
    ∃ p2, consumeString (k ++ 34 :: rest) pos [] = some (.ok (k, rest, p2)) := by
  refine ⟨pos + k.length + 1, ?_⟩
  rw [consumeString_plain_run k (34 :: rest) pos [] (fun x hx => ⟨(hk x hx).2.1, (hk x hx).2.2⟩)]
  rw [consumeString_quote]
  rw [utf8Decode_ascii _ (by intro c hc; simp at hc; exact (hk c hc).1)]
  simp

lemma tokenizeLoop_string_step (s : List Nat) (fuel : Nat)
    (rest : List Nat) (pos : Nat) (acc : List Token)
    (hs : ∀ c ∈ s, c < 128) :
    ∃ p2, tokenizeLoop (fuel + 1) (stringToJson s ++ rest) pos acc =
      tokenizeLoop fuel rest p2 (acc ++ [.string s]) := by
  have harr : stringToJson s ++ rest = 34 :: (escapeJsonString s ++ 34 :: rest) := by
    simp [stringToJson]
  rw [harr, tokenizeLoop_quote]
  obtain ⟨p2, hp⟩ := consumeString_escaped s rest (pos + 1) [] hs (by simp)
  rw [hp]
  exact ⟨p2, rfl⟩

lemma tokenizeLoop_key_step (k : List Nat) (fuel : Nat)
    (rest : List Nat) (pos : Nat) (acc : List Token)
    (hk : ∀ c ∈ k, c < 128 ∧ c ≠ 34 ∧ c ≠ 92) :
    ∃ p2, tokenizeLoop (fuel + 1) (([34] ++ k ++ [34]) ++ rest) pos acc =
      tokenizeLoop fuel rest p2 (acc ++ [.string k]) := by
  have harr : ([34] ++ k ++ [34]) ++ rest = 34 :: (k ++ 34 :: rest) := by simp
  rw [harr, tokenizeLoop_quote]
  obtain ⟨p2, hp⟩ := consumeString_key k rest (pos + 1) hk
  rw [hp]
  exact ⟨p2, rfl⟩

lemma tokenizeLoop_lbrace (fuel : Nat) (rest : List Nat) (pos : Nat) (acc : List Token) :
    tokenizeLoop (fuel + 1) (123 :: rest) pos acc =
      tokenizeLoop fuel rest (pos + 1) (acc ++ [.leftBrace]) := by
  rw [tokenizeLoop.eq_def]; rfl

lemma tokenizeLoop_rbrace (fuel : Nat) (rest : List Nat) (pos : Nat) (acc : List Token) :
    tokenizeLoop (fuel + 1) (125 :: rest) pos acc =
      tokenizeLoop fuel rest (pos + 1) (acc ++ [.rightBrace]) := by
  rw [tokenizeLoop.eq_def]; rfl

lemma tokenizeLoop_lbracket (fuel : Nat) (rest : List Nat) (pos : Nat) (acc : List Token) :
    tokenizeLoop (fuel + 1) (91 :: rest) pos acc =
      tokenizeLoop fuel rest (pos + 1) (acc ++ [.leftBracket]) := by
  rw [tokenizeLoop.eq_def]; rfl

lemma tokenizeLoop_rbracket (fuel : Nat) (rest : List Nat) (pos : Nat) (acc : List Token) :
    tokenizeLoop (fuel + 1) (93 :: rest) pos acc =
      tokenizeLoop fuel rest (pos + 1) (acc ++ [.rightBracket]) := by
  rw [tokenizeLoop.eq_def]; rfl

lemma tokenizeLoop_comma (fuel : Nat) (rest : List Nat) (pos : Nat) (acc : List Token) :
    tokenizeLoop (fuel + 1) (44 :: rest) pos acc =
      tokenizeLoop fuel rest (pos + 1) (acc ++ [.comma]) := by
  rw [tokenizeLoop.eq_def]; rfl

lemma tokenizeLoop_colon (fuel : Nat) (rest : List Nat) (pos : Nat) (acc : List Token) :
    tokenizeLoop (fuel + 1) (58 :: rest) pos acc =
      tokenizeLoop fuel rest (pos + 1) (acc ++ [.colon]) := by
  rw [tokenizeLoop.eq_def]; rfl

lemma tokenizeLoop_space (fuel : Nat) (rest : List Nat) (pos : Nat) (acc : List Token) :
    tokenizeLoop (fuel + 1) (32 :: rest) pos acc = tokenizeLoop fuel rest (pos + 1) acc := by
  rw [tokenizeLoop.eq_def]; rfl


lemma sepOk_not_alpha {rest : List Nat} (hr : sepOk rest) :
    ∀ y ∈ rest.head?, isAsciiAlpha y = false := by
  intro y hy
  cases rest with
  | nil => simp at hy
  | cons c t =>
    simp at hy
    subst hy
    rcases hr with rfl | rfl | rfl <;> decide

lemma sepOk_not_number {rest : List Nat} (hr : sepOk rest) :
    ∀ y ∈ rest.head?, isNumberChar y = false := by
  intro y hy
  cases rest with
  | nil => simp at hy
  | cons c t =>
    simp at hy
    subst hy
    rcases hr with rfl | rfl | rfl <;> decide

lemma consumeKeyword_null (rest : List Nat) (pos : Nat) (hr : sepOk rest) :
    consumeKeyword ([110, 117, 108, 108] ++ rest) pos =
      .ok (.null, rest, pos + 4) := by
  simp only [consumeKeyword]
  rw [takeWhile_append_sep _ _ (by decide) (sepOk_not_alpha hr)]
  rw [List.drop_left]
  rw [if_neg (by decide), if_neg (by decide), if_pos rfl]
  rfl

lemma consumeKeyword_true (rest : List Nat) (pos : Nat) (hr : sepOk rest) :
    consumeKeyword ([116, 114, 117, 101] ++ rest) pos =
      .ok (.boolean true, rest, pos + 4) := by
  simp only [consumeKeyword]
  rw [takeWhile_append_sep _ _ (by decide) (sepOk_not_alpha hr)]
  rw [List.drop_left]
  rw [if_pos rfl]
  rfl

lemma consumeKeyword_false (rest : List Nat) (pos : Nat) (hr : sepOk rest) :
    consumeKeyword ([102, 97, 108, 115, 101] ++ rest) pos =
      .ok (.boolean false, rest, pos + 5) := by
  simp only [consumeKeyword]
  rw [takeWhile_append_sep _ _ (by decide) (sepOk_not_alpha hr)]
  rw [List.drop_left]
  rw [if_neg (by decide), if_pos rfl]
  rfl

lemma tokenizeLoop_null_step (fuel : Nat) (rest : List Nat) (pos : Nat) (acc : List Token)
    (hr : sepOk rest) :
    tokenizeLoop (fuel + 1) (nullChars ++ rest) pos acc =
      tokenizeLoop fuel rest (pos + 4) (acc ++ [.null]) := by
  have hkw := consumeKeyword_null rest pos hr
  rw [tokenizeLoop.eq_def]
  show (match consumeKeyword (110 :: ([117, 108, 108] ++ rest)) pos with
    | .ok (t, rest2, pos2) => tokenizeLoop fuel rest2 pos2 (acc ++ [t])
    | .error e => some (.error e)) = _
  have hkw2 : consumeKeyword (110 :: ([117, 108, 108] ++ rest)) pos =
      .ok (.null, rest, pos + 4) := hkw
  rw [hkw2]

lemma tokenizeLoop_true_step (fuel : Nat) (rest : List Nat) (pos : Nat) (acc : List Token)
    (hr : sepOk rest) :
    tokenizeLoop (fuel + 1) (boolChars true ++ rest) pos acc =
      tokenizeLoop fuel rest (pos + 4) (acc ++ [.boolean true]) := by
  have hkw := consumeKeyword_true rest pos hr
  rw [tokenizeLoop.eq_def]
  show (match consumeKeyword (116 :: ([114, 117, 101] ++ rest)) pos with
    | .ok (t, rest2, pos2) => tokenizeLoop fuel rest2 pos2 (acc ++ [t])
    | .error e => some (.error e)) = _
  have hkw2 : consumeKeyword (116 :: ([114, 117, 101] ++ rest)) pos =
      .ok (.boolean true, rest, pos + 4) := hkw
  rw [hkw2]

lemma tokenizeLoop_false_step (fuel : Nat) (rest : List Nat) (pos : Nat) (acc : List Token)
    (hr : sepOk rest) :
    tokenizeLoop (fuel + 1) (boolChars false ++ rest) pos acc =
      tokenizeLoop fuel rest (pos + 5) (acc ++ [.boolean false]) := by
  have hkw := consumeKeyword_false rest pos hr
  rw [tokenizeLoop.eq_def]
  show (match consumeKeyword (102 :: ([97, 108, 115, 101] ++ rest)) pos with
    | .ok (t, rest2, pos2) => tokenizeLoop fuel rest2 pos2 (acc ++ [t])
    | .error e => some (.error e)) = _
  have hkw2 : consumeKeyword (102 :: ([97, 108, 115, 101] ++ rest)) pos =
      .ok (.boolean false, rest, pos + 5) := hkw
  rw [hkw2]


lemma intToChars_head_bounds (i : Int) :
    ∃ c t, intToChars i = c :: t ∧ ((48 ≤ c ∧ c ≤ 57) ∨ c = 45) := by
  unfold intToChars
  by_cases hi : i < 0
  · rw [if_pos hi]
    exact ⟨45, _, rfl, Or.inr rfl⟩
  · rw [if_neg hi]
    obtain ⟨c, t, hct⟩ : ∃ c t, natToChars i.natAbs = c :: t := by
      cases h : natToChars i.natAbs with
      | nil => exact absurd h (natToChars_ne_nil _)
      | cons c t => exact ⟨c, t, rfl⟩
    have hc := natToChars_digits i.natAbs c (by rw [hct]; simp)
    simp [isAsciiDigit] at hc
    exact ⟨c, t, hct, Or.inl (by omega)⟩

lemma consumeNumber_intToChars (i : Int) (rest : List Nat) (pos : Nat) (hr : sepOk rest) :
    consumeNumber (intToChars i ++ rest) pos =
      .ok (⟨i, 1⟩, rest, pos + (intToChars i).length) := by
  simp only [consumeNumber]
  rw [takeWhile_append_sep _ _ (intToChars_numchars i) (sepOk_not_number hr)]
  rw [List.drop_left]
  rw [parseF64_intToChars]

lemma tokenizeLoop_number_step (q : Q) (fuel : Nat) (rest : List Nat) (pos : Nat)
    (acc : List Token) (hq : q.den = 1) (hr : sepOk rest) :
    ∃ p2, tokenizeLoop (fuel + 1) (fmtF64 q ++ rest) pos acc =
      tokenizeLoop fuel rest p2 (acc ++ [.number q]) := by
  rw [fmtF64_int hq]
  obtain ⟨c, t, hct, hb⟩ := intToChars_head_bounds q.num
  have hnum := consumeNumber_intToChars q.num rest pos hr
  rw [hct] at hnum
  rw [hct]
  refine ⟨pos + (c :: t).length, ?_⟩
  rw [tokenizeLoop.eq_def]
  show (if c = 32 ∨ c = 10 ∨ c = 9 ∨ c = 13 then tokenizeLoop fuel (t ++ rest) (pos + 1) acc
    else _) = _
  rw [if_neg (show ¬(c = 32 ∨ c = 10 ∨ c = 9 ∨ c = 13) by
    rcases hb with ⟨h1, h2⟩ | rfl <;> omega)]
  rw [if_neg (show ¬(c = 34) by rcases hb with ⟨h1, h2⟩ | rfl <;> omega)]
  rw [if_pos (show isAsciiDigit c = true ∨ c = 45 by
    rcases hb with ⟨h1, h2⟩ | rfl
    · exact Or.inl (by simp [isAsciiDigit]; omega)
    · exact Or.inr rfl)]
  have hnum2 : consumeNumber (c :: (t ++ rest)) pos =
      .ok (⟨q.num, 1⟩, rest, pos + (c :: t).length) := hnum
  simp only [List.append_eq]
  rw [hnum2]
  have hqq : (⟨q.num, 1⟩ : Q) = q := by
    obtain ⟨n, d⟩ := q
    simp at hq
    subst hq
    rfl
  rw [hqq]

/-! ## Scanning a compact serialization -/

lemma tokStep_string (s : List Nat) (hs : ∀ c ∈ s, c < 128) :
    TokStep (.string s) := by
  intro fuel rest pos acc hr hfuel
  have hlen : 1 ≤ (toJsonString (.string s)).length := by
    simp [toJsonString, stringToJson]
  obtain ⟨f, rfl⟩ : ∃ f, fuel = f + 1 := ⟨fuel - 1, by omega⟩
  obtain ⟨p2, hp⟩ := tokenizeLoop_string_step s f rest pos acc hs
  refine ⟨1, p2, by omega, ?_⟩
  show tokenizeLoop (f + 1) (stringToJson s ++ rest) pos acc = _
  rw [hp]
  rfl

lemma tokStep_number (q : Q) (hq : q.den = 1) : TokStep (.number q) := by
  intro fuel rest pos acc hr hfuel
  have hlen : 1 ≤ (toJsonString (.number q)).length := by
    simp only [toJsonString]
    rw [fmtF64_int hq]
    obtain ⟨c, t, hct, _⟩ := intToChars_head_bounds q.num
    rw [hct]
    simp
  obtain ⟨f, rfl⟩ : ∃ f, fuel = f + 1 := ⟨fuel - 1, by omega⟩
  obtain ⟨p2, hp⟩ := tokenizeLoop_number_step q f rest pos acc hq hr
  refine ⟨1, p2, by omega, ?_⟩
  show tokenizeLoop (f + 1) (fmtF64 q ++ rest) pos acc = _
  rw [hp]
  rfl

lemma tokStep_null : TokStep .null := by
  intro fuel rest pos acc hr hfuel
  have hlen : 1 ≤ (toJsonString .null).length := by simp [toJsonString, nullChars]
  obtain ⟨f, rfl⟩ : ∃ f, fuel = f + 1 := ⟨fuel - 1, by omega⟩
  refine ⟨1, pos + 4, by simp [toJsonString, nullChars], ?_⟩
  show tokenizeLoop (f + 1) (nullChars ++ rest) pos acc = _
  rw [tokenizeLoop_null_step f rest pos acc hr]
  rfl

lemma tokStep_boolean (b : Bool) : TokStep (.boolean b) := by
  intro fuel rest pos acc hr hfuel
  cases b with
  | true =>
    have hlen : 1 ≤ (toJsonString (.boolean true)).length := by
      simp [toJsonString, boolChars]
    obtain ⟨f, rfl⟩ : ∃ f, fuel = f + 1 := ⟨fuel - 1, by omega⟩
    refine ⟨1, pos + 4, by simp [toJsonString, boolChars], ?_⟩
    show tokenizeLoop (f + 1) (boolChars true ++ rest) pos acc = _
    rw [tokenizeLoop_true_step f rest pos acc hr]
    rfl
  | false =>
    have hlen : 1 ≤ (toJsonString (.boolean false)).length := by
      simp [toJsonString, boolChars]
    obtain ⟨f, rfl⟩ : ∃ f, fuel = f + 1 := ⟨fuel - 1, by omega⟩
    refine ⟨1, pos + 5, by simp [toJsonString, boolChars], ?_⟩
    show tokenizeLoop (f + 1) (boolChars false ++ rest) pos acc = _
    rw [tokenizeLoop_false_step f rest pos acc hr]
    rfl


lemma ser_items_step : ∀ (items : List JsonValue), (∀ v ∈ items, TokStep v) →
    ∀ fuel rest pos acc, sepOk rest → (serItems items).length ≤ fuel →
    ∃ d p2, d ≤ (serItems items).length ∧
      tokenizeLoop fuel (serItems items ++ rest) pos acc =
        tokenizeLoop (fuel - d) rest p2 (acc ++ tokensOfItems items) := by
  intro items
  induction items with
  | nil =>
    intro _ fuel rest pos acc _ _
    refine ⟨0, pos, by simp, ?_⟩
    simp [serItems, tokensOfItems]
  | cons v vs ih =>
    intro hP fuel rest pos acc hr hfuel
    cases vs with
    | nil =>
      have h1 : serItems [v] = toJsonString v := by rw [serItems.eq_def]
      have h2 : tokensOfItems [v] = tokensOf v := by rw [tokensOfItems.eq_def]
      rw [h1, h2]
      rw [h1] at hfuel
      exact hP v (by simp) fuel rest pos acc hr hfuel
    | cons w ws =>
      have h1 : serItems (v :: w :: ws) = toJsonString v ++ [44] ++ serItems (w :: ws) := by
        rw [serItems.eq_def]
      have h2 : tokensOfItems (v :: w :: ws) =
          tokensOf v ++ Token.comma :: tokensOfItems (w :: ws) := by
        rw [tokensOfItems.eq_def]
      rw [h1, h2]
      rw [h1] at hfuel
      have hlen : (toJsonString v ++ [44] ++ serItems (w :: ws)).length =
          (toJsonString v).length + 1 + (serItems (w :: ws)).length := by
        simp
        omega
      obtain ⟨d1, p2, hd1, heq1⟩ := hP v (by simp) fuel
        (44 :: (serItems (w :: ws) ++ rest)) pos acc (Or.inl rfl) (by omega)
      obtain ⟨f2, hf2⟩ : ∃ f2, fuel - d1 = f2 + 1 := ⟨fuel - d1 - 1, by omega⟩
      obtain ⟨d2, p3, hd2, heq3⟩ := ih (fun x hx => hP x (by simp [hx])) f2 rest (p2 + 1)
        (acc ++ tokensOf v ++ [Token.comma]) hr (by omega)
      refine ⟨d1 + 1 + d2, p3, by omega, ?_⟩
      have hin : (toJsonString v ++ [44] ++ serItems (w :: ws)) ++ rest =
          toJsonString v ++ 44 :: (serItems (w :: ws) ++ rest) := by simp
      rw [hin, heq1, hf2, tokenizeLoop_comma, heq3]
      have hfu : f2 - d2 = fuel - (d1 + 1 + d2) := by omega
      rw [hfu]
      congr 1
      simp


lemma ser_entries_step : ∀ (es : List (List Nat × JsonValue)),
    (∀ kv ∈ es, TokStep kv.2) →
    (∀ kv ∈ es, ∀ c ∈ kv.1, c < 128 ∧ c ≠ 34 ∧ c ≠ 92) →
    ∀ fuel rest pos acc, sepOk rest → (serEntries es).length ≤ fuel →
    ∃ d p2, d ≤ (serEntries es).length ∧
      tokenizeLoop fuel (serEntries es ++ rest) pos acc =
        tokenizeLoop (fuel - d) rest p2 (acc ++ tokensOfEntries es) := by
  intro es
  induction es with
  | nil =>
    intro _ _ fuel rest pos acc _ _
    refine ⟨0, pos, by simp, ?_⟩
    simp [serEntries, tokensOfEntries]
  | cons kv evs ih =>
    obtain ⟨k, v⟩ := kv
    intro hP hK fuel rest pos acc hr hfuel
    cases evs with
    | nil =>
      have h1 : serEntries [(k, v)] = [34] ++ k ++ [34, 58, 32] ++ toJsonString v := by
        rw [serEntries.eq_def]
      have h2 : tokensOfEntries [(k, v)] = Token.string k :: Token.colon :: tokensOf v := by
        rw [tokensOfEntries.eq_def]
      rw [h1, h2]
      rw [h1] at hfuel
      have hlen : ([34] ++ k ++ [34, 58, 32] ++ toJsonString v).length
          = k.length + (toJsonString v).length + 4 := by
        simp
        omega
      obtain ⟨f3, rfl⟩ : ∃ f, fuel = f + 3 := ⟨fuel - 3, by omega⟩
      have hin : ([34] ++ k ++ [34, 58, 32] ++ toJsonString v) ++ rest
          = ([34] ++ k ++ [34]) ++ (58 :: 32 :: (toJsonString v ++ rest)) := by simp
      obtain ⟨p2, hkey⟩ := tokenizeLoop_key_step k (f3 + 2)
        (58 :: 32 :: (toJsonString v ++ rest)) pos acc (hK (k, v) (by simp))
      have hPv : TokStep v := hP (k, v) (by simp)
      obtain ⟨d4, p4, hd4, heq4⟩ := hPv f3 rest (p2 + 1 + 1)
        (acc ++ [Token.string k] ++ [Token.colon]) hr (by omega)
      refine ⟨3 + d4, p4, by omega, ?_⟩
      rw [hin]
      show tokenizeLoop (f3 + 2 + 1) (([34] ++ k ++ [34]) ++ (58 :: 32 :: (toJsonString v ++ rest)))
        pos acc = _
      rw [hkey]
      show tokenizeLoop (f3 + 1 + 1) (58 :: (32 :: (toJsonString v ++ rest))) p2
        (acc ++ [Token.string k]) = _
      rw [tokenizeLoop_colon, tokenizeLoop_space, heq4]
      rw [show f3 - d4 = f3 + 3 - (3 + d4) from by omega]
      congr 1
      simp
    | cons e2 es2 =>
      have h1 : serEntries ((k, v) :: e2 :: es2) =
          [34] ++ k ++ [34, 58, 32] ++ toJsonString v ++ [44] ++ serEntries (e2 :: es2) := by
        rw [serEntries.eq_def]
      have h2 : tokensOfEntries ((k, v) :: e2 :: es2) =
          Token.string k :: Token.colon :: tokensOf v ++
            Token.comma :: tokensOfEntries (e2 :: es2) := by
        rw [tokensOfEntries.eq_def]
      rw [h1, h2]
      rw [h1] at hfuel
      have hlen : ([34] ++ k ++ [34, 58, 32] ++ toJsonString v ++ [44] ++
          serEntries (e2 :: es2)).length
          = k.length + (toJsonString v).length + (serEntries (e2 :: es2)).length + 5 := by
        simp
        omega
      obtain ⟨f3, rfl⟩ : ∃ f, fuel = f + 3 := ⟨fuel - 3, by omega⟩
      have hin : ([34] ++ k ++ [34, 58, 32] ++ toJsonString v ++ [44] ++
            serEntries (e2 :: es2)) ++ rest
          = ([34] ++ k ++ [34]) ++ (58 :: 32 :: (toJsonString v ++
              (44 :: (serEntries (e2 :: es2) ++ rest)))) := by simp
      obtain ⟨p2, hkey⟩ := tokenizeLoop_key_step k (f3 + 2)
        (58 :: 32 :: (toJsonString v ++ (44 :: (serEntries (e2 :: es2) ++ rest)))) pos acc
        (hK (k, v) (by simp))
      have hPv : TokStep v := hP (k, v) (by simp)
      obtain ⟨d4, p4, hd4, heq4⟩ := hPv f3
        (44 :: (serEntries (e2 :: es2) ++ rest)) (p2 + 1 + 1)
        (acc ++ [Token.string k] ++ [Token.colon]) (Or.inl rfl) (by omega)
      obtain ⟨f5, hf5⟩ : ∃ f, f3 - d4 = f + 1 := ⟨f3 - d4 - 1, by omega⟩
      obtain ⟨d6, p6, hd6, heq6⟩ := ih (fun x hx => hP x (by simp [hx]))
        (fun x hx => hK x (by simp [hx])) f5 rest (p4 + 1)
        (acc ++ [Token.string k] ++ [Token.colon] ++ tokensOf v ++ [Token.comma]) hr (by omega)
      refine ⟨3 + d4 + 1 + d6, p6, by omega, ?_⟩
      rw [hin]
      show tokenizeLoop (f3 + 2 + 1) (([34] ++ k ++ [34]) ++ (58 :: 32 :: (toJsonString v ++
        (44 :: (serEntries (e2 :: es2) ++ rest))))) pos acc = _
      rw [hkey]
      show tokenizeLoop (f3 + 1 + 1) (58 :: (32 :: (toJsonString v ++
        (44 :: (serEntries (e2 :: es2) ++ rest))))) p2 (acc ++ [Token.string k]) = _
      rw [tokenizeLoop_colon, tokenizeLoop_space, heq4, hf5, tokenizeLoop_comma, heq6]
      rw [show f5 - d6 = f3 + 3 - (3 + d4 + 1 + d6) from by omega]
      congr 1
      simp


lemma tokStep_good : ∀ v, GoodTree v → TokStep v := by
  refine JsonValue.inductionOn (fun v => GoodTree v → TokStep v) ?_ ?_ ?_ ?_ ?_ ?_
  · intro s hg
    cases hg with
    | string _ hs => exact tokStep_string s hs
  · intro q hg
    cases hg with
    | number _ h1 => exact tokStep_number q h1
  · intro b _
    exact tokStep_boolean b
  · intro _
    exact tokStep_null
  · intro items hIH hg
    cases hg with
    | array _ hgood =>
      intro fuel rest pos acc hr hfuel
      have hlen : (toJsonString (.array items)).length = (serItems items).length + 2 := by
        simp only [toJsonString, List.length_append, List.length_cons, List.length_nil]
        omega
      obtain ⟨f, rfl⟩ : ∃ f, fuel = f + 2 := ⟨fuel - 2, by omega⟩
      obtain ⟨d2, p2, hd2, heq2⟩ := ser_items_step items
        (fun v hv => hIH v hv (hgood v hv)) (f + 1) (93 :: rest) (pos + 1)
        (acc ++ [Token.leftBracket]) (Or.inr (Or.inl rfl)) (by omega)
      obtain ⟨f3, hf3⟩ : ∃ g, f + 1 - d2 = g + 1 := ⟨f - d2, by omega⟩
      refine ⟨1 + d2 + 1, p2 + 1, by omega, ?_⟩
      have hin : toJsonString (.array items) ++ rest
          = 91 :: (serItems items ++ (93 :: rest)) := by simp [toJsonString]
      rw [hin]
      show tokenizeLoop (f + 1 + 1) (91 :: (serItems items ++ (93 :: rest))) pos acc = _
      rw [tokenizeLoop_lbracket, heq2, hf3, tokenizeLoop_rbracket]
      rw [show f3 = f + 2 - (1 + d2 + 1) from by omega]
      simp [tokensOf]
  · intro es hIH hg
    cases hg with
    | object _ hgood hkeys _ =>
      intro fuel rest pos acc hr hfuel
      have hlen : (toJsonString (.object es)).length = (serEntries es).length + 2 := by
        simp only [toJsonString, List.length_append, List.length_cons, List.length_nil]
        omega
      obtain ⟨f, rfl⟩ : ∃ f, fuel = f + 2 := ⟨fuel - 2, by omega⟩
      obtain ⟨d2, p2, hd2, heq2⟩ := ser_entries_step es
        (fun kv hkv => hIH kv hkv (hgood kv hkv)) hkeys (f + 1) (125 :: rest) (pos + 1)
        (acc ++ [Token.leftBrace]) (Or.inr (Or.inr rfl)) (by omega)
      obtain ⟨f3, hf3⟩ : ∃ g, f + 1 - d2 = g + 1 := ⟨f - d2, by omega⟩
      refine ⟨1 + d2 + 1, p2 + 1, by omega, ?_⟩
      have hin : toJsonString (.object es) ++ rest
          = 123 :: (serEntries es ++ (125 :: rest)) := by simp [toJsonString]
      rw [hin]
      show tokenizeLoop (f + 1 + 1) (123 :: (serEntries es ++ (125 :: rest))) pos acc = _
      rw [tokenizeLoop_lbrace, heq2, hf3, tokenizeLoop_rbrace]
      rw [show f3 = f + 2 - (1 + d2 + 1) from by omega]
      simp [tokensOf]

lemma tokenize_toJsonString (v : JsonValue) (hg : GoodTree v) :
    tokenize (toJsonString v) = some (.ok (tokensOf v)) := by
  unfold tokenize
  obtain ⟨d, p2, hd, heq⟩ := tokStep_good v hg ((toJsonString v).length + 1) [] 0 []
    trivial (by omega)
  rw [List.append_nil] at heq
  rw [heq, tokenizeLoop_nil _ _ _ (by omega)]
  simp


lemma GItems_tokensOf : ∀ (items : List JsonValue), items ≠ [] →
    (∀ v ∈ items, GVal (tokensOf v) v) → GItems (tokensOfItems items) items := by
  intro items
  induction items with
  | nil => intro h _; exact absurd rfl h
  | cons v vs ih =>
    intro _ hall
    cases vs with
    | nil =>
      have h2 : tokensOfItems [v] = tokensOf v := by rw [tokensOfItems.eq_def]
      rw [h2]
      exact GItems.single _ v (hall v (by simp))
    | cons w ws =>
      have h2 : tokensOfItems (v :: w :: ws) =
          tokensOf v ++ Token.comma :: tokensOfItems (w :: ws) := by
        rw [tokensOfItems.eq_def]
      rw [h2]
      exact GItems.cons _ v _ (w :: ws) (hall v (by simp))
        (ih (by simp) (fun x hx => hall x (by simp [hx])))

lemma GEntries_tokensOf : ∀ (es : List (List Nat × JsonValue)), es ≠ [] →
    (∀ kv ∈ es, GVal (tokensOf kv.2) kv.2) → GEntries (tokensOfEntries es) es := by
  intro es
  induction es with
  | nil => intro h _; exact absurd rfl h
  | cons kv evs ih =>
    obtain ⟨k, v⟩ := kv
    intro _ hall
    cases evs with
    | nil =>
      have h2 : tokensOfEntries [(k, v)] = Token.string k :: Token.colon :: tokensOf v := by
        rw [tokensOfEntries.eq_def]
      rw [h2]
      exact GEntries.single k _ v (hall (k, v) (by simp))
    | cons e2 es2 =>
      have h2 : tokensOfEntries ((k, v) :: e2 :: es2) =
          Token.string k :: Token.colon :: tokensOf v ++
            Token.comma :: tokensOfEntries (e2 :: es2) := by
        rw [tokensOfEntries.eq_def]
      rw [h2]
      exact GEntries.cons k _ v _ (e2 :: es2) (hall (k, v) (by simp))
        (ih (by simp) (fun x hx => hall x (by simp [hx])))

lemma GVal_tokensOf : ∀ v, GVal (tokensOf v) v := by
  refine JsonValue.inductionOn (fun v => GVal (tokensOf v) v) ?_ ?_ ?_ ?_ ?_ ?_
  · intro s; exact GVal.str s
  · intro q; exact GVal.num q
  · intro b; exact GVal.boolean b
  · exact GVal.null
  · intro items hIH
    cases items with
    | nil => exact GVal.arrNil
    | cons v vs =>
      show GVal (Token.leftBracket :: tokensOfItems (v :: vs) ++ [Token.rightBracket]) _
      exact GVal.arr _ (v :: vs) (GItems_tokensOf (v :: vs) (by simp) hIH)
  · intro es hIH
    cases es with
    | nil => exact GVal.objNil
    | cons kv evs =>
      show GVal (Token.leftBrace :: tokensOfEntries (kv :: evs) ++ [Token.rightBrace]) _
      exact GVal.obj _ (kv :: evs) (GEntries_tokensOf (kv :: evs) (by simp) hIH)


lemma insertKV_not_mem : ∀ (acc : List (List Nat × JsonValue)) (k : List Nat) (v : JsonValue),
    (∀ kv ∈ acc, kv.1 ≠ k) → insertKV acc k v = acc ++ [(k, v)] := by
  intro acc k v
  induction acc with
  | nil => intro _; rfl
  | cons kv2 acc2 ih =>
    obtain ⟨k2, v2⟩ := kv2
    intro h
    show insertKV ((k2, v2) :: acc2) k v = _
    rw [insertKV]
    rw [if_neg (h (k2, v2) (by simp))]
    rw [ih (fun x hx => h x (by simp [hx]))]
    rfl

lemma normE_acc : ∀ (es acc : List (List Nat × JsonValue)),
    (∀ kv ∈ acc, ∀ kv2 ∈ es, kv.1 ≠ kv2.1) →
    es.Pairwise (fun a b => a.1 ≠ b.1) →
    (∀ kv ∈ es, normV kv.2 = kv.2) →
    normE acc es = acc ++ es := by
  intro es
  induction es with
  | nil => intro acc _ _ _; simp [normE]
  | cons kv evs ih =>
    obtain ⟨k, v⟩ := kv
    intro acc hacc hpair hnorm
    show normE acc ((k, v) :: evs) = _
    rw [normE]
    rw [show normV v = v from hnorm (k, v) (by simp)]
    rw [insertKV_not_mem acc k v (fun x hx => hacc x hx (k, v) (by simp))]
    rw [ih (acc ++ [(k, v)]) ?not2 (List.Pairwise.sublist (by simp) hpair) ?norm2]
    · simp
    case not2 =>
      intro x hx kv2 hkv2
      simp at hx
      rcases hx with hx | rfl
      · exact hacc x hx kv2 (by simp [hkv2])
      · exact (List.pairwise_cons.mp hpair).1 kv2 hkv2
    case norm2 =>
      intro kv2 hkv2
      exact hnorm kv2 (by simp [hkv2])

lemma normL_id : ∀ (items : List JsonValue), (∀ v ∈ items, normV v = v) →
    normL items = items := by
  intro items
  induction items with
  | nil => intro _; rfl
  | cons v vs ih =>
    intro h
    show normL (v :: vs) = _
    rw [normL, h v (by simp), ih (fun x hx => h x (by simp [hx]))]

lemma normV_id : ∀ v, GoodTree v → normV v = v := by
  refine JsonValue.inductionOn (fun v => GoodTree v → normV v = v) ?_ ?_ ?_ ?_ ?_ ?_
  · intro s _; rfl
  · intro q _; rfl
  · intro b _; rfl
  · intro _; rfl
  · intro items hIH hg
    cases hg with
    | array _ hgood =>
      show normV (.array items) = _
      rw [normV, normL_id items (fun v hv => hIH v hv (hgood v hv))]
  · intro es hIH hg
    cases hg with
    | object _ hgood _ hpair =>
      show normV (.object es) = _
      rw [normV, normE_acc es [] (by simp) hpair
        (fun kv hkv => hIH kv hkv (hgood kv hkv))]
      simp

/-! ## Claim theorems -/

/-- C1: the claim says `parse` (and `parse_json`) runs to completion on every
input, and in particular that `parse_object` terminates on token sequences
where a brace or bracket opens inside an object before any colon, such as
`"{{}}"` or `"{[1]}"`.  The code does not: in `parse_object` the
`Token::LeftBrace`/`Token::LeftBracket` arms only act when `colon_found` is
true, and otherwise consume nothing, so the `while let` loop never advances.
This theorem shows the runs on `"{{}}"` and `"{[1]}"` exhaust every fuel
bound (the model's rendering of an infinite loop), so `parse_json` on the
byte strings `"{{}}"` and `"{[1]}"` never produces a result. -/
theorem parse_object_loops_forever_on_nested_brace :
    (∀ fuel, parseValueF fuel
      ⟨[Token.leftBrace, Token.leftBrace, Token.rightBrace, Token.rightBrace], 0⟩ = none)
    ∧ (∀ fuel, parseValueF fuel
      ⟨[Token.leftBrace, Token.leftBracket, Token.number (Q.ofInt 1), Token.rightBracket,
        Token.rightBrace], 0⟩ = none)
    ∧ parseJson [123, 123, 125, 125] = none
    ∧ parseJson [123, 91, 49, 93, 125] = none :=
  ⟨valueF_spin, valueF_spin_bracket, by decide, by decide⟩

/-- C2 counterexample: `parse` succeeds on the input `"{: 1}"`, whose token
stream is not derivable from the strict JSON grammar (a member cannot start
with a colon), returning an object with a phantom empty-string key.  This
refutes the claim that `parse` succeeds only on grammar-derivable inputs. -/
theorem parse_accepts_nongrammatical_object :
    parseJson [123, 58, 32, 49, 125] =
      some (.ok (JsonValue.object [([], JsonValue.number (Q.ofInt 1))]))
    ∧ tokenize [123, 58, 32, 49, 125] =
      some (.ok [Token.leftBrace, Token.colon, Token.number (Q.ofInt 1), Token.rightBrace])
    ∧ ¬ Grammatical [Token.leftBrace, Token.colon, Token.number (Q.ofInt 1), Token.rightBrace] :=
  ⟨by decide, by decide, not_grammatical_colon_object⟩

/-- C2 (amended): `parse` accepts every token stream derivable from the strict
JSON grammar, returning the derived value with object entry lists replayed
through `HashMap::insert` (last write wins on duplicate keys) — but not only
those streams: as the counterexample shows, some non-grammatical object forms
such as `"{: 1}"` are accepted as well, so a successful parse need not
correspond to a valid JSON production. -/
theorem parse_accepts_every_grammatical_stream :
    ∀ ts v, GVal ts v → parseTokens ts = some (.ok (normV v)) :=
  fun ts v h => parse_tokens_complete ts v h

/-- C2 witness: the grammatical stream of `{"a": 1}` parses to its value. -/
theorem parse_accepts_every_grammatical_stream_witness :
    parseTokens [Token.leftBrace, Token.string [97], Token.colon,
      Token.number (Q.ofInt 1), Token.rightBrace] =
      some (.ok (normV (JsonValue.object [([97], JsonValue.number (Q.ofInt 1))]))) :=
  parse_accepts_every_grammatical_stream _ _
    (GVal.obj _ _ (GEntries.single [97] _ _ (GVal.num (Q.ofInt 1))))

/-- C3 counterexample: the compact serializer interpolates object keys without
escaping (`format!("\"{}\": {}", key, value)`), so the tree
`{"\"": null}` — a single entry whose key is one double-quote character, hence
collision-free — serializes to the 11 bytes `{""": null}`, and re-parsing
that text fails with `UnexpectedEndOfInput` instead of returning the tree. -/
theorem roundtrip_fails_on_quote_key :
    toJsonString (JsonValue.object [([34], JsonValue.null)]) =
      [123, 34, 34, 34, 58, 32, 110, 117, 108, 108, 125]
    ∧ parseJson (toJsonString (JsonValue.object [([34], JsonValue.null)])) =
      some (.error (.unexpectedEndOfInput "Closing quote" 11)) := by
  constructor
  · decide
  · decide

/-- C4: the four malformed inputs `"[1, 2,]"`, `"{\"a\": 1,}"`,
`"{\"key\" 1}"` and `"[1 2 3]"` are each rejected with an
`UnexpectedToken` structural error (trailing commas, a missing colon after an
object key, and missing commas between array elements), never a `Value`. -/
theorem parse_rejects_malformed_structure :
    parseJson [91, 49, 44, 32, 50, 44, 93] =
      some (.error (.unexpectedToken "string, bool, number or object" "]" 5))
    ∧ parseJson [123, 34, 97, 34, 58, 32, 49, 44, 125] =
      some (.error (.unexpectedToken "string" "\x7d" 5))
    ∧ parseJson [123, 34, 107, 101, 121, 34, 32, 49, 125] =
      some (.error (.unexpectedToken ":" "Number(1.0)" 1))
    ∧ parseJson [91, 49, 32, 50, 32, 51, 93] =
      some (.error (.unexpectedToken "," "Number(2.0)" 2)) := by
  refine ⟨?_, ?_, ?_, ?_⟩ <;> decide

/-- C5: parsing `"{\"a\": 1, \"a\": 2}"` maps the repeated key `"a"` to the
value of its last occurrence (`HashMap::insert` overwrites), and `get("a")`
returns `Number(2.0)`. -/
theorem parse_duplicate_keys_last_write_wins :
    parseJson [123, 34, 97, 34, 58, 32, 49, 44, 32, 34, 97, 34, 58, 32, 50, 125] =
      some (.ok (JsonValue.object [([97], JsonValue.number (Q.ofInt 2))]))
    ∧ (JsonValue.object [([97], JsonValue.number (Q.ofInt 2))]).get [97] =
      some (JsonValue.number (Q.ofInt 2)) := by
  constructor
  · decide
  · decide

/-- C6 counterexample: the claim says a `\u` escape must be followed by exactly
four hexadecimal digits.  But the hex field is parsed with
`u32::from_str_radix(.., 16)`, which accepts a leading sign, so tokenizing
`"\u+041"` succeeds and decodes to `"A"` even though `'+'` is not a
hexadecimal digit. -/
theorem unicode_escape_accepts_signed_hex :
    tokenize [34, 92, 117, 43, 48, 52, 49, 34] = some (.ok [Token.string [65]])
    ∧ hexDigitVal 43 = none := by
  constructor
  · decide
  · decide

/-- C6 (amended): in a string literal a `\u` escape must be followed by at
least four bytes, and the four-byte window must be accepted by
`u32::from_str_radix(.., 16)` — the four hexadecimal digits of the claim, or a
sign followed by three of them — denoting a valid Unicode scalar value, which
is decoded into one character.  The scanner fails with `InvalidUnicode`
(whose `sequence` field holds the UTF-8 decoding of the offending window or
remainder) when fewer than four bytes remain after the `\u` or the window
does not so parse — provided the byte after the window does not sit inside a
multi-byte character.  When it does, the byte slice
`&input[hex_start..hex_start + 4]` panics and the scanner returns neither a
value nor an error.  Every code point accepted on this path is a valid scalar
value.  The final conjuncts exhibit both failure shapes and the panic at the
`tokenize` level (the last on `"\u000é"`). -/
theorem unicode_escape_lexing_amended :
    (∀ (rest : List Nat) (pos : Nat) (acc : List Nat), rest.length < 4 →
      consumeStringSlow (92 :: 117 :: rest) pos acc =
        some (.error (.invalidUnicode ("\\u" ++ listToString (utf8Decode rest)) (pos + 2))))
    ∧ (∀ a b c d (rest : List Nat) (pos : Nat) (acc : List Nat),
        parseUnicodeHex [a, b, c, d] = none →
        hexSliceEndsMidChar rest = false →
      consumeStringSlow (92 :: 117 :: a :: b :: c :: d :: rest) pos acc =
        some (.error (.invalidUnicode
          ("\\u" ++ listToString (utf8Decode [a, b, c, d])) (pos + 2))))
    ∧ (∀ a b c d b2 (rest : List Nat) (pos : Nat) (acc : List Nat),
        128 ≤ b2 → b2 ≤ 191 →
      consumeStringSlow (92 :: 117 :: a :: b :: c :: d :: b2 :: rest) pos acc = none)
    ∧ (∀ a b c d ch (rest : List Nat) (pos : Nat) (acc : List Nat),
        parseUnicodeHex [a, b, c, d] = some ch →
        hexSliceEndsMidChar rest = false →
      consumeStringSlow (92 :: 117 :: a :: b :: c :: d :: rest) pos acc =
        consumeStringSlow rest (pos + 6) (acc ++ [ch]))
    ∧ (∀ n, (∃ s, parseUnicodeHex s = some n) → charFromU32 n = some n)
    ∧ tokenize [34, 92, 117, 48, 48, 71, 71, 34] =
        some (.error (.invalidUnicode "\\u00GG" 3))
    ∧ tokenize [34, 92, 117, 48, 52, 34] = some (.error (.invalidUnicode "\\u04\"" 3))
    ∧ tokenize [34, 92, 117, 48, 48, 48, 195, 169, 34] = none := by
  refine ⟨?_, ?_, ?_, ?_, ?_, by decide, by decide, by decide⟩
  · intro rest pos acc h
    rcases rest with _ | ⟨a, _ | ⟨b, _ | ⟨c, _ | ⟨d, r⟩⟩⟩⟩
    · rfl
    · rfl
    · rfl
    · rfl
    · simp at h
      omega
  · intro a b c d rest pos acc h hb
    simp [consumeStringSlow, h, hb]
  · intro a b c d b2 rest pos acc h1 h2
    have hb : hexSliceEndsMidChar (b2 :: rest) = true := by
      simp [hexSliceEndsMidChar]
      omega
    simp [consumeStringSlow, hb]
  · intro a b c d ch rest pos acc h hb
    simp [consumeStringSlow, h, hb]
  · rintro n ⟨s, hs⟩
    unfold parseUnicodeHex at hs
    split at hs
    · exact absurd hs (by simp)
    · obtain ⟨m, hm1, hm2⟩ := Option.bind_eq_some.mp hs
      unfold charFromU32 at hm2 ⊢
      by_cases hc : m < 55296 ∨ (57344 ≤ m ∧ m ≤ 1114111)
      · rw [if_pos hc] at hm2
        cases hm2
        rw [if_pos hc]
      · rw [if_neg hc] at hm2
        exact absurd hm2 (by simp)

/-- C6 witness: the branches of `unicode_escape_lexing_amended` applied at
concrete inputs — a truncated escape, the non-hex `"00GG"`, the panic on the
window `000` + the first byte of `é` (the slice end splits `é`), the accepted
`"0041"` decoding to `'A'`, and the scalar produced by `"0041"`. -/
theorem unicode_escape_lexing_amended_witness :
    consumeStringSlow [92, 117, 48, 52] 0 [] =
      some (.error (.invalidUnicode ("\\u" ++ listToString (utf8Decode [48, 52])) 2))
    ∧ consumeStringSlow [92, 117, 48, 48, 71, 71, 34] 0 [] =
      some (.error (.invalidUnicode ("\\u" ++ listToString (utf8Decode [48, 48, 71, 71])) 2))
    ∧ consumeStringSlow [92, 117, 48, 48, 48, 195, 169, 34] 0 [] = none
    ∧ consumeStringSlow [92, 117, 48, 48, 52, 49, 34] 0 [] =
      consumeStringSlow [34] 6 ([] ++ [65])
    ∧ charFromU32 65 = some 65 :=
  ⟨unicode_escape_lexing_amended.1 [48, 52] 0 [] (by decide),
   unicode_escape_lexing_amended.2.1 48 48 71 71 [34] 0 [] (by decide) (by decide),
   unicode_escape_lexing_amended.2.2.1 48 48 48 195 169 [34] 0 [] (by decide) (by decide),
   unicode_escape_lexing_amended.2.2.2.1 48 48 52 49 65 [34] 0 [] (by decide) (by decide),
   unicode_escape_lexing_amended.2.2.2.2.1 65 ⟨[48, 48, 52, 49], by decide⟩⟩

/-- C7: the claim says every `tokenize` error carries the scanner's cursor
offset at the offending character, including the keyword and
unhandled-punctuation paths.  Both paths hard-code `position: 0`: on
`"  x"` the offending keyword starts at offset 2 and on `" @"` the
punctuation sits at offset 1, yet both errors report position `0`. -/
theorem tokenize_keyword_and_punct_errors_position_zero :
    tokenize [32, 32, 120] = some (.error (.unexpectedToken "Valid JSON value" "x" 0))
    ∧ tokenize [32, 64] = some (.error (.unexpectedToken "Valid JSON value" "@" 0)) := by
  constructor
  · decide
  · decide

/-- C8: a `Number` whose `f64` payload is integral (its truncation equals
itself, the source's test) serializes compactly as its integer digits with no
trailing decimal point, and non-integral values go through the default
formatting; in particular `Number(42.0)` prints `"42"` and `Number(3.14)`
prints `"3.14"` (`⟨157, 50⟩` is the exact rational 3.14). -/
theorem numeric_serialization_format :
    (∀ q : Q, Q.ofInt q.trunc = q → fmtF64 q = intToChars q.num ∧ 46 ∉ fmtF64 q)
    ∧ toJsonString (JsonValue.number (Q.ofInt 42)) = [52, 50]
    ∧ toJsonString (JsonValue.number ⟨157, 50⟩) = [51, 46, 49, 52] := by
  refine ⟨?_, by decide, by decide⟩
  intro q hq
  have hnum : q.trunc = q.num := by
    have := congrArg Q.num hq
    simpa [Q.ofInt] using this
  have hfmt : fmtF64 q = intToChars q.trunc := by
    unfold fmtF64
    rw [if_pos hq]
  rw [hfmt, hnum]
  exact ⟨rfl, no_dot_in_intToChars q.num⟩

/-- C8 witness: the universal branch applied at the integral payload `5.0`. -/
theorem numeric_serialization_format_witness :
    fmtF64 (Q.ofInt 5) = intToChars (Q.ofInt 5).num ∧ 46 ∉ fmtF64 (Q.ofInt 5) :=
  numeric_serialization_format.1 (Q.ofInt 5) (by decide)

/-- C10: once a string literal enters the slow (escape-handling) path, every
subsequent non-escape byte is pushed as one character cast from `u8`
(`s.push(b as char)`).  For every literal of shape
`"` · plain-ASCII `p` · escape `\e` · the UTF-8 bytes of a multi-byte scalar
`c` · plain bytes `q` · `"`, `tokenize` returns `Ok` with a `String` token
whose content is `p · ch(e) · (the raw UTF-8 bytes of c, one Latin-1
character each) · q`, which is never the UTF-8 decoding
`p · ch(e) · c · q` of the source text. -/
theorem slow_path_mangles_multibyte_after_escape :
    ∀ (p q1 : List Nat) (c e ch : Nat),
      (∀ x ∈ p, x < 128 ∧ x ≠ 34 ∧ x ≠ 92) →
      (∀ x ∈ q1, x ≠ 34 ∧ x ≠ 92) →
      128 ≤ c →
      e ≠ 117 →
      resolveEscapeSequence e = some ch →
      tokenize ([34] ++ p ++ [92, e] ++ utf8EncodeChar c ++ q1 ++ [34]) =
        some (.ok [Token.string (p ++ [ch] ++ utf8EncodeChar c ++ q1)])
      ∧ p ++ [ch] ++ utf8EncodeChar c ++ q1 ≠ p ++ [ch] ++ [c] ++ q1 := by
  intro p q1 c e ch hp hq hc he hres
  constructor
  · unfold tokenize
    have hshape : [34] ++ p ++ [92, e] ++ utf8EncodeChar c ++ q1 ++ [34] =
        34 :: (p ++ (92 :: e :: (utf8EncodeChar c ++ (q1 ++ [34])))) := by
      simp
    rw [hshape]
    have hlen : (34 :: (p ++ (92 :: e :: (utf8EncodeChar c ++ (q1 ++ [34]))))).length + 1 =
        (p ++ (92 :: e :: (utf8EncodeChar c ++ (q1 ++ [34])))).length + 1 + 1 := by
      simp
    rw [hlen, tokenizeLoop_quote]
    rw [consumeString_plain_run p _ 1 [] (fun x hx => (hp x hx).2)]
    rw [consumeString_backslash]
    rw [utf8Decode_ascii ([] ++ p) (by simpa using fun x hx => (hp x hx).1)]
    rw [consumeStringSlow_escape e ch _ _ _ he hres]
    have hrun : utf8EncodeChar c ++ (q1 ++ [34]) = (utf8EncodeChar c ++ q1) ++ 34 :: [] := by
      simp
    rw [hrun]
    rw [consumeStringSlow_run (utf8EncodeChar c ++ q1) [] _ _ ?hplain]
    case hplain =>
      intro x hx
      rcases List.mem_append.mp hx with hx | hx
      · have := utf8EncodeChar_high hc x hx
        omega
      · exact hq x hx
    show tokenizeLoop _ [] _ _ = _
    rw [tokenizeLoop_nil _ _ _ (by positivity)]
    simp
  · intro heq
    have hlen := congrArg List.length heq
    simp at hlen
    have h2 := utf8EncodeChar_len hc
    omega

/-- C10 witness: the literal `"a\né"` (with `é` = U+00E9 as two UTF-8 bytes)
followed by `b`, instantiating the theorem at `p = "a"`, `q = "b"`,
`c = 233`, escape `\n`. -/
theorem slow_path_mangles_multibyte_after_escape_witness :
    tokenize ([34] ++ [97] ++ [92, 110] ++ utf8EncodeChar 233 ++ [98] ++ [34]) =
      some (.ok [Token.string ([97] ++ [10] ++ utf8EncodeChar 233 ++ [98])])
    ∧ [97] ++ [10] ++ utf8EncodeChar 233 ++ [98] ≠ [97] ++ [10] ++ [233] ++ [98] :=
  slow_path_mangles_multibyte_after_escape [97] [98] 233 110 10
    (by decide) (by decide) (by decide) (by decide) (by decide)

/-- C9: `parse` does not require the token stream to be fully consumed —
`"1 2"` parses to `Number(1.0)` and `"[] 5"` parses to the empty array, the
trailing tokens being silently ignored; and `parse_primitive` returns its
value without consuming the primitive's own token (the state is unchanged). -/
theorem parse_ignores_trailing_tokens :
    parseJson [49, 32, 50] = some (.ok (JsonValue.number (Q.ofInt 1)))
    ∧ parseJson [91, 93, 32, 53] = some (.ok (JsonValue.array []))
    ∧ parsePrimitive ⟨[Token.number (Q.ofInt 1), Token.number (Q.ofInt 2)], 0⟩ =
      .ok (JsonValue.number (Q.ofInt 1),
        (⟨[Token.number (Q.ofInt 1), Token.number (Q.ofInt 2)], 0⟩ : PState)) := by
  refine ⟨?_, ?_, ?_⟩ <;> decide

/-- **C3 (amended).** Round-trip on serialization-safe trees: for every value
tree whose string contents are ASCII, whose object keys are ASCII and free of
quote and backslash, whose numbers are integral, and whose objects have no
duplicate keys, parsing the compact serialization yields the tree again:
`parse(to_compact_string(v)) == v`.  (The unrestricted round-trip of the spec
fails because object keys are interpolated without escaping; see the
counterexample theorem.) -/
theorem roundtrip_on_serialization_safe_trees (v : JsonValue) (h : GoodTree v) :
    parseJson (toJsonString v) = some (.ok v) := by
  unfold parseJson
  rw [tokenize_toJsonString v h]
  show parseTokens (tokensOf v) = some (.ok v)
  rw [parse_tokens_complete _ v (GVal_tokensOf v)]
  rw [normV_id v h]

/-- Witness for the amended C3 round-trip at the concrete tree
`{"a": 5, "b": ["h!", null]}`. -/
theorem roundtrip_on_serialization_safe_trees_witness :
    GoodTree (JsonValue.object [([97], JsonValue.number ⟨5, 1⟩),
      ([98], JsonValue.array [JsonValue.string [104, 33], JsonValue.null])]) ∧
    parseJson (toJsonString (JsonValue.object [([97], JsonValue.number ⟨5, 1⟩),
      ([98], JsonValue.array [JsonValue.string [104, 33], JsonValue.null])])) =
      some (.ok (JsonValue.object [([97], JsonValue.number ⟨5, 1⟩),
        ([98], JsonValue.array [JsonValue.string [104, 33], JsonValue.null])])) := by
  have hg : GoodTree (JsonValue.object [([97], JsonValue.number ⟨5, 1⟩),
      ([98], JsonValue.array [JsonValue.string [104, 33], JsonValue.null])]) := by
    refine GoodTree.object _ ?_ ?_ ?_
    · intro kv hkv
      simp at hkv
      rcases hkv with rfl | rfl
      · exact GoodTree.number _ rfl
      · refine GoodTree.array _ ?_
        intro v hv
        simp at hv
        rcases hv with rfl | rfl
        · exact GoodTree.string _ (by decide)
        · exact GoodTree.null
    · intro kv hkv c hc
      simp at hkv
      rcases hkv with rfl | rfl <;> simp at hc <;> subst hc <;> decide
    · simp
  exact ⟨hg, roundtrip_on_serialization_safe_trees _ hg⟩

end RustJson
